import Mathlib

/-!
Verification development for the multiprot repository (Ranch and Pulchra
wrappers around the external RANCH and PULCHRA binaries).

The Python code manipulates `biskit.PDBModel` structures: an atomic protein
structure grouped into chains, each chain a list of residues, each residue a
nonempty list of atoms.  We embed that data model shallowly: a `PDBModel` is a
list of chains; operations that the source uses (`sequence`, `take`,
`res2atomIndices`, `takeResidues`, `takeChains`, `concat`, `remove`,
`mergeChains`, `renumberResidues`, `addChainId`, serial renumbering,
`atom2chainIndices`, `maskFrom`) are defined over this representation,
following biskit's documented behaviour.  Atom-index based operations
(`take`/`remove`) act on the flattened atom table exactly as numpy index
selection does for the sorted index lists the source constructs.

Strings are modelled as `List Char` so that Python string slicing and
concatenation correspond to list operations.
-/

abbrev Str := List Char

structure Atom where
  serial : Nat
  x : Int
  y : Int
  z : Int
  deriving DecidableEq, Repr

/-- The coordinate triple of an atom (the part biskit stores in `xyz`). -/
def Atom.coord (a : Atom) : Int × Int × Int := (a.x, a.y, a.z)

structure Residue where
  code : Char
  num : Nat
  atoms : List Atom
  deriving DecidableEq, Repr

structure Chain where
  cid : Char
  residues : List Residue
  deriving DecidableEq, Repr

structure PDBModel where
  chains : List Chain
  source : Option Str := none
  deriving DecidableEq, Repr

namespace PDBModel

/-- Flattened residue list of a model (chain order, then residue order). -/
def resList (m : PDBModel) : List Residue := m.chains.flatMap (·.residues)

/-- biskit `PDBModel.sequence()`: the one-letter code string, one char per
residue, over all chains. -/
def sequence (m : PDBModel) : Str := (m.resList).map (·.code)

/-- Per-chain sequences (used to state chain-structure facts). -/
def chainSeqs (m : PDBModel) : List Str :=
  m.chains.map (fun c => c.residues.map (·.code))

def lenChains (m : PDBModel) : Nat := m.chains.length

def lenResidues (m : PDBModel) : Nat := m.resList.length

/-- Total number of atoms of a list of residues. -/
def sumRA (rs : List Residue) : Nat := (rs.map (fun r => r.atoms.length)).sum

/-- Total number of atoms of a chain. -/
def catoms (c : Chain) : Nat := sumRA c.residues

/-- Flattened atom table of a model. -/
def atomsFlat (m : PDBModel) : List Atom := m.resList.flatMap (·.atoms)

def atomCount (m : PDBModel) : Nat := m.atomsFlat.length

/-- biskit `xyz` array: per-atom coordinates in flat order. -/
def xyz (m : PDBModel) : List (Int × Int × Int) := m.atomsFlat.map Atom.coord

/-- Starting atom index of residue `i` (biskit `resIndex()[i]`).  For
`i ≥ lenResidues` this clamps to the total atom count; the Python code never
evaluates `resIndex()` out of range on the inputs the claims quantify over. -/
def resIndexAt (m : PDBModel) (i : Nat) : Nat := sumRA (m.resList.take i)

/-- Number of atoms of residue `i` (0 when out of range). -/
def resLenAt (m : PDBModel) (i : Nat) : Nat :=
  match m.resList.get? i with
  | some r => r.atoms.length
  | none => 0

/-- biskit `res2atomIndices(l)`: the atom indices of the residues listed in
`l`, concatenated in the order of `l` (each residue contributes its contiguous
atom-index range). -/
def res2atomIndices (m : PDBModel) (l : List Nat) : List Nat :=
  l.flatMap (fun i => List.range' (m.resIndexAt i) (m.resLenAt i))

/-- Python slice `s[a:b]` (for the nonnegative bounds used in the source). -/
def pySlice (s : Str) (a b : Nat) : Str := (s.drop a).take (b - a)

/-- Keep the atoms whose running global index satisfies `p`. -/
def filterAtoms (p : Nat → Bool) : Nat → List Atom → List Atom
  | _, [] => []
  | off, a :: as =>
      if p off then a :: filterAtoms p (off + 1) as else filterAtoms p (off + 1) as

/-- Keep, per residue, the atoms selected by `p`; drop emptied residues. -/
def filterResL (p : Nat → Bool) : Nat → List Residue → List Residue
  | _, [] => []
  | off, r :: rs =>
      let as := filterAtoms p off r.atoms
      let rest := filterResL p (off + r.atoms.length) rs
      if as.isEmpty then rest else { r with atoms := as } :: rest

/-- Keep, per chain, the residues/atoms selected by `p`; drop emptied chains. -/
def filterChainsL (p : Nat → Bool) : Nat → List Chain → List Chain
  | _, [] => []
  | off, c :: cs =>
      let rs := filterResL p off c.residues
      let rest := filterChainsL p (off + catoms c) cs
      if rs.isEmpty then rest else { c with residues := rs } :: rest

/-- Model of the atom-index selection underlying biskit `take(atomIndices)`
and `remove(atomIndices)`: keep the atoms whose flat index satisfies `p`
(the source only ever selects sorted index lists, for which numpy selection
coincides with this order-preserving filter). -/
def restrict (m : PDBModel) (p : Nat → Bool) : PDBModel :=
  { chains := filterChainsL p 0 m.chains, source := none }

/-- biskit `take(atomIndices)` for the sorted atom-index lists the source
builds. -/
def take (m : PDBModel) (ixs : List Nat) : PDBModel :=
  m.restrict (fun i => decide (i ∈ ixs))

/-- biskit `remove(atomIndices)`: in-place removal; result keeps the model's
source. -/
def remove (m : PDBModel) (ixs : List Nat) : PDBModel :=
  { chains := filterChainsL (fun i => !(decide (i ∈ ixs))) 0 m.chains,
    source := m.source }

/-- biskit `takeResidues(l)`, implemented (as in biskit) via
`take(res2atomIndices(l))`. -/
def takeResidues (m : PDBModel) (l : List Nat) : PDBModel :=
  m.take (m.res2atomIndices l)

/-- biskit `takeChains(l)`: the chains at the listed indices, in list order. -/
def takeChains (m : PDBModel) (l : List Nat) : PDBModel :=
  { chains := l.filterMap (fun i => m.chains.get? i), source := none }

/-- biskit `concat`: append the atom tables; each argument's chain boundaries
are preserved. -/
def concat (m1 m2 : PDBModel) : PDBModel :=
  { chains := m1.chains ++ m2.chains, source := none }

/-- biskit `mergeChains(0)`: fuse chains 0 and 1 into one chain. -/
def mergeChains0 (m : PDBModel) : PDBModel :=
  match m.chains with
  | c1 :: c2 :: rest =>
      { chains := { cid := c1.cid, residues := c1.residues ++ c2.residues } :: rest,
        source := m.source }
  | _ => m

/-- Iterate `mergeChains(0)` `n` times (the source runs it
`lenChains - 1` times, with the bound evaluated once up front). -/
def mergeN : Nat → PDBModel → PDBModel
  | 0, m => m
  | n + 1, m => mergeN n (mergeChains0 m)

def mergeLoop (m : PDBModel) : PDBModel := mergeN (m.lenChains - 1) m

def renumFrom (n : Nat) : List Residue → List Residue
  | [] => []
  | r :: rs => { r with num := n } :: renumFrom (n + 1) rs

def renumChains (n : Nat) : List Chain → List Chain
  | [] => []
  | c :: cs =>
      { c with residues := renumFrom n c.residues }
        :: renumChains (n + c.residues.length) cs

/-- biskit `renumberResidues()`: residue numbers become 1, 2, 3, … across the
model. -/
def renumberResidues (m : PDBModel) : PDBModel :=
  { chains := renumChains 1 m.chains, source := m.source }

def addCid (n : Nat) : List Chain → List Chain
  | [] => []
  | c :: cs => { c with cid := Char.ofNat (65 + n) } :: addCid (n + 1) cs

/-- biskit `addChainId()`: chain IDs become consecutive letters A, B, C, … -/
def addChainId (m : PDBModel) : PDBModel :=
  { chains := addCid 0 m.chains, source := m.source }

def serialAtoms (n : Nat) : List Atom → List Atom
  | [] => []
  | a :: as => { a with serial := n } :: serialAtoms (n + 1) as

def serialRes (n : Nat) : List Residue → List Residue
  | [] => []
  | r :: rs => { r with atoms := serialAtoms n r.atoms } :: serialRes (n + r.atoms.length) rs

def serialChs (n : Nat) : List Chain → List Chain
  | [] => []
  | c :: cs => { c with residues := serialRes n c.residues } :: serialChs (n + catoms c) cs

/-- The assignment `full['serial_number'] = N0.arange(1, len(full)+1)`. -/
def renumberSerials (m : PDBModel) : PDBModel :=
  { chains := serialChs 1 m.chains, source := m.source }

/-- Residue numbers in flat order (used to state renumbering facts). -/
def resNums (m : PDBModel) : List Nat := m.resList.map (·.num)

/-- Well-formedness every parsed PDBModel enjoys: chains are nonempty and
every residue holds at least one atom. -/
def WF (m : PDBModel) : Prop :=
  ∀ c ∈ m.chains, c.residues ≠ [] ∧ ∀ r ∈ c.residues, r.atoms ≠ []

instance (m : PDBModel) : Decidable m.WF := by
  unfold WF; infer_instance

/-- The empty model `B.PDBModel()`. -/
def empty : PDBModel := { chains := [] }

end PDBModel

/-- Generic Python slice `l[a:b]` on lists (nonnegative bounds). -/
def sliceL {α : Type} (l : List α) (a b : Nat) : List α := (l.drop a).take (b - a)

/-- Worker for `occs`, fuelled by the remaining string length (the pattern is
nonempty here, so every step consumes at least one character). -/
def occsAux (pat : Str) : Nat → Str → Nat → List Nat
  | 0, _, _ => []
  | _ + 1, [], _ => []
  | fuel + 1, c :: s, pos =>
      if pat.isPrefixOf (c :: s) then
        pos :: occsAux pat fuel ((c :: s).drop pat.length) (pos + pat.length)
      else
        occsAux pat fuel s (pos + 1)

/-- The start positions that `re.finditer(pat, s)` yields (left-to-right,
non-overlapping); the amino-acid sequences searched contain no regex
metacharacters, so the regex search is a plain substring search.  An empty
pattern matches at every position, as in `re`. -/
def occs (pat s : Str) : List Nat :=
  if pat.isEmpty then List.range (s.length + 1) else occsAux pat s.length s 0

/-- Python's substring test `pat in s`. -/
def pySub (pat : Str) : Str → Bool
  | [] => pat.isPrefixOf []
  | c :: s => pat.isPrefixOf (c :: s) || pySub pat s

namespace PDBModel

/-- Worker for `atom2chainIndices`. -/
def atom2chainAux (ixs : List Nat) : Nat → Nat → List Chain → List Nat
  | _, _, [] => []
  | ci, off, c :: cs =>
      let rest := atom2chainAux ixs (ci + 1) (off + catoms c) cs
      if (List.range' off (catoms c)).any (fun i => ixs.contains i) then
        ci :: rest
      else
        rest

/-- biskit `atom2chainIndices(atomIndices)`: the (ascending, duplicate-free)
chain indices containing any of the given atoms. -/
def atom2chainIndices (m : PDBModel) (ixs : List Nat) : List Nat :=
  atom2chainAux ixs 0 0 m.chains

end PDBModel

/-- Run a fallible function over a list, propagating the first failure: the
behaviour of a Python list comprehension whose body may raise. -/
def mapExc {α β ε : Type} (f : α → Except ε β) : List α → Except ε (List β)
  | [] => .ok []
  | x :: xs =>
      match f x with
      | .error e => .error e
      | .ok y =>
          match mapExc f xs with
          | .error e => .error e
          | .ok ys => .ok (y :: ys)

namespace Ranch

/-- Error outcomes of the Python code paths: `KeyError` from dictionary
lookup, `IndexError` from `[0]`/`[-1]` on an empty list, `ValueError` from
`list.remove`, and the explicitly raised `TypeError`s. -/
inductive ExErr
  | keyErr
  | idxErr
  | valueErr
  | typeErr
  deriving DecidableEq, Repr

/-- `Ranch.embed(dom, to_embed)` (new_ranch_6.py lines 240-257): the first two
residues of `dom`, then `to_embed`, then the remaining residues of `dom`. -/
def embed (dom to_embed : PDBModel) : PDBModel :=
  let first := dom.take (dom.res2atomIndices [0, 1])
  let last := dom.take (dom.res2atomIndices (List.range' 2 (dom.lenResidues - 2)))
  (first.concat to_embed).concat last

/-- Inner `for match in matches` loop of `extract_fixed`: returns the matched
residue's atom indices in `full` at the first coordinate agreement (`break`),
or `none` when no match agrees. -/
def matchLoop (m full : PDBModel) (lowm highm : Nat) :
    List Nat → Except ExErr (Option (List Nat))
  | [] => .ok none
  | idx :: rest =>
      let fr := full.res2atomIndices [idx]
      match fr.head?, fr.getLast? with
      | some lowfull, some highfull =>
          if sliceL m.xyz lowm (highm + 1) = sliceL full.xyz lowfull (highfull + 1) then
            .ok (some fr)
          else
            matchLoop m full lowm highm rest
      | _, _ => .error .idxErr

/-- Outer `for m in doms` loop of `extract_fixed`, threading the
`chains_to_take` list.  `list.remove` raises `ValueError` when the value is
absent, as in Python. -/
def fixedLoop (full : PDBModel) : List PDBModel → List Nat → Except ExErr (List Nat)
  | [], ctt => .ok ctt
  | m :: ms, ctt =>
      let start := m.sequence.take 10
      if occs start full.sequence ≠ [] then
        let fr_m := m.res2atomIndices [0]
        match fr_m.head?, fr_m.getLast? with
        | some lowm, some highm =>
            match matchLoop m full lowm highm (occs start full.sequence) with
            | .error e => .error e
            | .ok none => fixedLoop full ms ctt
            | .ok (some fr_full) =>
                match (full.atom2chainIndices fr_full).head? with
                | none => .error .idxErr
                | some ci =>
                    if ctt.contains ci then
                      fixedLoop full ms (ctt.erase ci)
                    else
                      .error .valueErr
        | _, _ => .error .idxErr
      else
        fixedLoop full ms ctt

/-- `Ranch.extract_fixed(dom, full)` (new_ranch_6.py lines 261-314). -/
def extract_fixed (dom full : PDBModel) : Except ExErr PDBModel :=
  let doms := (List.range dom.lenChains).map (fun i => dom.takeChains [i])
  match fixedLoop full doms (List.range full.lenChains) with
  | .error e => .error e
  | .ok ctt => .ok (full.takeChains ctt)

/-- First loop of `extract_embedded`: check every entry of the embedded
dictionary against the corresponding slice of `full.sequence()`, building `r`
and `emb_ind`; the `TypeError` is raised here, before any atom removal. -/
def embCheck (full : PDBModel) :
    List (PDBModel × Nat) → PDBModel → List (Nat × Nat) →
    Except Unit (PDBModel × List (Nat × Nat))
  | [], r, inds => .ok (r, inds)
  | (dom, i_start) :: rest, r, inds =>
      let i_end := i_start + dom.sequence.length
      if PDBModel.pySlice full.sequence i_start i_end = dom.sequence then
        embCheck full rest
          (r.concat (full.takeResidues (List.range' i_start (i_end - i_start))))
          (inds ++ [(i_start, i_end)])
      else
        .error ()

/-- Stable descending insertion by the first component:
`sorted(emb_ind, key=itemgetter(0), reverse=True)`. -/
def insertDesc (x : Nat × Nat) : List (Nat × Nat) → List (Nat × Nat)
  | [] => [x]
  | y :: ys => if y.1 ≤ x.1 then x :: y :: ys else y :: insertDesc x ys

def sortDesc : List (Nat × Nat) → List (Nat × Nat)
  | [] => []
  | x :: xs => insertDesc x (sortDesc xs)

/-- Second loop of `extract_embedded`: remove the atom ranges of the embedded
spans, highest start first. -/
def removeEmb : List (Nat × Nat) → PDBModel → PDBModel
  | [], full => full
  | (i_s, i_e) :: rest, full =>
      removeEmb rest
        (full.remove
          (List.range' (full.resIndexAt i_s) (full.resIndexAt i_e - full.resIndexAt i_s)))

/-- `Ranch.extract_embedded(full, embedded)` (new_ranch_6.py lines 317-371).
The error value carries the state of `full` at the moment the `TypeError` is
raised: the raising loop precedes every mutation of `full`. -/
def extract_embedded (full : PDBModel) (embedded : List (PDBModel × Nat)) :
    Except PDBModel PDBModel :=
  match embCheck full embedded PDBModel.empty [] with
  | .error _ => .error full
  | .ok (r, emb_ind) =>
      let full1 := removeEmb (sortDesc emb_ind) full
      let full2 := PDBModel.mergeLoop full1
      let full3 := full2.renumberResidues
      let full4 := full3.concat r
      let full5 := full4.addChainId
      .ok full5.renumberSerials

/-- `Ranch.extract_symmetric(full, symseq, embedded)` (new_ranch_6.py lines
373-416). -/
def extract_symmetric (full : PDBModel) (symseq : Str)
    (embedded : List (PDBModel × Nat)) : Except Unit PDBModel :=
  if occs symseq full.sequence ≠ [] then
    match mapExc (fun istart =>
        (extract_embedded (full.takeResidues (List.range' istart symseq.length))
            embedded).mapError (fun _ => ()))
        (occs symseq full.sequence) with
    | .error e => .error e
    | .ok [] => .error ()
    | .ok (s0 :: rest) =>
        let r := rest.foldl PDBModel.concat s0
        .ok (r.addChainId).renumberSerials
  else
    .error ()

/-- `Ranch.isFailed` (new_ranch_6.py lines 455-461): base-class error flag, or
the string `Problems` occurring in the captured output. -/
def isFailed (error : Bool) (output : Str) : Bool :=
  error || pySub (("Problems").toList) output

end Ranch

/-- An element of the `*domains` argument: a linker sequence string or a
PDBModel. -/
inductive DomainElem
  | strElem (s : Str)
  | modElem (m : PDBModel)
  deriving DecidableEq, Repr

/-- A value of the `chains` dictionary: a single chain id string, or a
list/tuple of chain ids. -/
inductive ChainsVal
  | one (c : Char)
  | many (l : List Char)
  deriving DecidableEq, Repr

/-- Association-list lookup, modelling Python dictionary access (`None`
instead of `KeyError`; callers turn `none` into the error). -/
def lookupD {α β : Type} [DecidableEq α] : List (α × β) → α → Option β
  | [], _ => none
  | (k, v) :: rest, key => if k = key then some v else lookupD rest key

namespace PDBModel

/-- biskit `maskFrom('chain_id', cid)`: per-atom boolean, true where the
atom's chain id equals `cid`. -/
def maskChainId (m : PDBModel) (cid : Char) : List Bool :=
  m.chains.flatMap
    (fun c => (c.residues.flatMap (·.atoms)).map (fun _ => decide (c.cid = cid)))

end PDBModel

def trueIdxs : List Bool → Nat → List Nat
  | [], _ => []
  | b :: bs, i => if b then i :: trueIdxs bs (i + 1) else trueIdxs bs (i + 1)

/-- `N.nonzero(mask)[0]`: indices of the true entries. -/
def nonzeroIdx (bs : List Bool) : List Nat := trueIdxs bs 0

namespace Ranch

/-- State accumulated by `Ranch._setup`'s loop. -/
structure SetupState where
  sequence : Str := []
  doms_in : List PDBModel := []
  embedded : List (PDBModel × Nat) := []
  deriving DecidableEq, Repr

/-- Steps 8/9 of `_setup`: select the chain named by `chain_id`, extract the
rest of `element` as `to_embed`, embed it, and record sequence, domain and the
embedded start position `len(self.sequence) + 2` (recorded before the
sequence grows). -/
def processPaired (element : PDBModel) (chain_id : Char) (σ : SetupState) :
    Except ExErr SetupState :=
  match (element.atom2chainIndices
      (nonzeroIdx (element.maskChainId chain_id))).head? with
  | none => .error .idxErr
  | some chain_ind =>
      let m := element.takeChains [chain_ind]
      match extract_fixed m element with
      | .error e => .error e
      | .ok to_embed =>
          let m_emb := embed m to_embed
          .ok { sequence := σ.sequence ++ m_emb.sequence,
                doms_in := σ.doms_in ++ [m_emb],
                embedded := σ.embedded ++ [(to_embed, σ.sequence.length + 2)] }

/-- The `for element in self.domains` loop of `Ranch._setup`
(new_ranch_6.py lines 120-231).  `i` counts only PDBModel elements (string
elements `continue` before the increment).  In the list/tuple branch the loop
`break`s: the result is returned without consuming the rest of the domain
list. -/
def setupLoop (chainsMap : List (PDBModel × ChainsVal)) (symunitSeq : Str)
    (fixed multich : List Str) :
    List DomainElem → Nat → SetupState → Except ExErr SetupState
  | [], _, σ => .ok σ
  | .strElem s :: rest, i, σ =>
      setupLoop chainsMap symunitSeq fixed multich rest i
        { σ with sequence := σ.sequence ++ s }
  | .modElem m :: rest, i, σ =>
      if multich.getD i [] = (("yes").toList) then
        setupLoop chainsMap symunitSeq fixed multich rest (i + 1)
          { σ with sequence := σ.sequence ++ symunitSeq,
                   doms_in := σ.doms_in ++ [m] }
      else if m.lenChains = 1 ∨ fixed.getD i [] = (("yes").toList) then
        setupLoop chainsMap symunitSeq fixed multich rest (i + 1)
          { σ with sequence := σ.sequence ++ m.sequence,
                   doms_in := σ.doms_in ++ [m] }
      else
        match lookupD chainsMap m with
        | none => .error .keyErr
        | some (.many l) =>
            match l with
            | [] => .error .idxErr
            | c :: _ => processPaired m c σ
        | some (.one c) =>
            match processPaired m c σ with
            | .error e => .error e
            | .ok σ2 => setupLoop chainsMap symunitSeq fixed multich rest (i + 1) σ2

end Ranch

/-- Modelled from the `tempfile.mkdtemp` contract the constructors rely on:
each call yields a directory that did not exist before.  Directories are
identified by the value of a monotone counter threaded through the calls. -/
def mkdtemp (st : Nat) : Nat × Nat := (st, st + 1)

namespace Ranch

/-- The `overall_symmetry` dictionary of `Ranch.__init__`
(new_ranch_6.py lines 69-73). -/
def overall_symmetry : List (Str × Str) :=
  [((("mixed").toList), (("m").toList)),
   ((("symmetry").toList), (("s").toList)),
   ((("asymmetry").toList), (("a").toList))]

def modelsOf (domains : List DomainElem) : List PDBModel :=
  domains.filterMap (fun e =>
    match e with
    | .modElem m => some m
    | _ => none)

/-- The fields of a constructed Ranch object that the claims inspect. -/
structure RanchObj where
  tempdir : Nat
  dir_models : Nat
  overall_sym : Str
  fixedL : List Str
  multichL : List Str
  setupSt : SetupState
  symseq : Option Str
  stNext : Nat
  deriving DecidableEq, Repr

/-- `Ranch.__init__` (new_ranch_6.py lines 38-106): temporary directories,
then the `overall_symmetry` lookup (a bad key raises `KeyError` here, before
the `fixed`/`multich` defaults and before `_setup` runs), then defaults,
symunit selection and `_setup`. -/
def ranchInit (st : Nat) (domains : List DomainElem)
    (chainsMap : List (PDBModel × ChainsVal)) (symtemplate : Option PDBModel)
    (symunit : Option PDBModel) (overall_sym : Str)
    (fixed multich : Option (List Str)) : Except ExErr RanchObj :=
  let (tempdir, st1) := mkdtemp st
  let (dir_models, st2) := mkdtemp st1
  match lookupD overall_symmetry overall_sym with
  | none => .error .keyErr
  | some code =>
      let fixedL := match fixed with
        | some f => f
        | none => (modelsOf domains).map (fun _ => (("no").toList))
      let multichL := match multich with
        | some l => l
        | none =>
            (modelsOf domains).map (fun m =>
              if symtemplate = some m then (("yes").toList) else (("no").toList))
      let symunitSeq := match symtemplate with
        | some stpl =>
            (match symunit with
             | some su => su
             | none => stpl.takeChains [0]).sequence
        | none => []
      match setupLoop chainsMap symunitSeq fixedL multichL domains 0 {} with
      | .error e => .error e
      | .ok σ =>
          .ok { tempdir := tempdir, dir_models := dir_models,
                overall_sym := code, fixedL := fixedL, multichL := multichL,
                setupSt := σ,
                symseq := if symtemplate.isSome then some σ.sequence else none,
                stNext := st2 }

/-- The two `mkdtemp` calls of `Ranch.__init__`: `(tempdir, dir_models)` and
the successor counter state. -/
def initDirs (st : Nat) : (Nat × Nat) × Nat :=
  let (tempdir, st1) := mkdtemp st
  let (dir_models, st2) := mkdtemp st1
  ((tempdir, dir_models), st2)

end Ranch

/-- Python `%`-formatting of a pattern against a tuple: each `%s` consumes the
next value.  (Python raises when values run out; the source always supplies
exactly as many values as markers.) -/
def pyFormat : Str → List Str → Str
  | [], _ => []
  | '%' :: 's' :: rest, v :: vs => v ++ pyFormat rest vs
  | '%' :: 's' :: rest, [] => '%' :: 's' :: pyFormat rest []
  | c :: rest, vs => c :: pyFormat rest vs

/-- Python `str(i)` for naturals. -/
def natStr (n : Nat) : Str := (Nat.repr n).toList

namespace Ranch

/-- The object fields `Ranch.prepare` reads. -/
structure RanchSt where
  f_seq : Str
  sequence : Str
  symmetry : Str
  overall_sym : Str
  tempdir : Str
  dir_models : Str
  doms_in : List PDBModel
  fixed : List Str
  multich : List Str

/-- The pdb-file writing loop of `prepare`: one file per entry of `doms_in`,
named `tempdir/<i>_` plus `.pdb` (no valid source) or the last 8 characters of
the source file name. -/
def pdbWritesAux (tempdir : Str) : Nat → List PDBModel → List (Str × PDBModel)
  | _, [] => []
  | i, d :: ds =>
      let pdb_name := tempdir ++ (("/").toList) ++ natStr i ++ (("_").toList) ++
        (match d.source with
         | none => ((".pdb").toList)
         | some src => src.drop (src.length - 8))
      (pdb_name, d) :: pdbWritesAux tempdir (i + 1) ds

/-- What `Ranch.prepare` produces: the pdb paths accumulated in
`self.pdbs_in`, the pdb files written, the sequence-file write, and the RANCH
argument string. -/
structure PrepOut where
  pdbs_in : List Str
  pdbWrites : List (Str × PDBModel)
  seqWrite : Str × Str
  args : Str

/-- `Ranch.prepare` (new_ranch_6.py lines 419-452), with the argument string
built by successive appends of `%`-formatted pieces exactly as in the
source. -/
def prepare (st : RanchSt) : PrepOut :=
  let writes := pdbWritesAux st.tempdir 0 st.doms_in
  let pdbs_in := writes.map (·.1)
  let args0 := st.f_seq ++ ((" -q=10 -i").toList)
  let args1 := args0 ++ pyFormat ((" -s=%s -y=%s").toList) [st.symmetry, st.overall_sym]
  let args2 := args1 ++
    pyFormat (List.flatten (List.replicate pdbs_in.length ((" -x=%s").toList))) pdbs_in
  let args3 := args2 ++
    pyFormat (List.flatten (List.replicate st.fixed.length ((" -f=%s").toList))) st.fixed
  let args4 := args3 ++
    pyFormat (List.flatten (List.replicate st.multich.length ((" -o=%s").toList))) st.multich
  let args5 := args4 ++ pyFormat ((" -w=%s").toList) [st.dir_models]
  { pdbs_in := pdbs_in, pdbWrites := writes,
    seqWrite := (st.f_seq, st.sequence), args := args5 }

/-- `Ranch.finish` (new_ranch_6.py lines 475-490): one result model per file
in the models directory, via `extract_symmetric` when a symtemplate was given
and `extract_embedded` otherwise.  `load` stands for `B.PDBModel` applied to a
file path; exceptions propagate. -/
def finishRanch (listing : List Str) (load : Str → PDBModel) (dir_models : Str)
    (symtemplate : Bool) (symseq : Str) (embedded : List (PDBModel × Nat)) :
    Except Unit (List PDBModel) :=
  let m_paths := listing.map (fun f => dir_models ++ (("/").toList) ++ f)
  if symtemplate then
    mapExc (fun p => extract_symmetric (load p) symseq embedded) m_paths
  else
    mapExc (fun p => (extract_embedded (load p) embedded).mapError (fun _ => ())) m_paths

/-- `Ranch.cleanup` (new_ranch_6.py lines 493-500): the temporary directory
tree is removed unless `debug` is set (the `super().cleanup()` call removes
the same tree). -/
def cleanup (debug : Bool) (tempdir : Nat) : List Nat :=
  if debug then [] else [tempdir]

end Ranch

namespace Pulchra

/-- The single `mkdtemp` call of `Pulchra.__init__` (pulchra.py lines 54-55). -/
def initDir (st : Nat) : Nat × Nat := mkdtemp st

/-- `Pulchra.finish` (pulchra.py lines 69-77): read the `.rebuilt.pdb` model
and renumber its residues. -/
def finish (load : Str → PDBModel) (rb_path : Str) : PDBModel :=
  let rebuilt := load rb_path
  rebuilt.renumberResidues

/-- `Pulchra.cleanup` (pulchra.py lines 79-84). -/
def cleanup (debug : Bool) (tempdir : Nat) : List Nat :=
  if debug then [] else [tempdir]

end Pulchra

/-- Atoms, residues and models used as concrete inputs by the witness
theorems. -/
def wAtom (n : Nat) : Atom := ⟨n, Int.ofNat n, 0, 0⟩

def wRes (c : Char) (n : Nat) : Residue := ⟨c, n, [wAtom n]⟩

def wDom : PDBModel := ⟨[⟨'A', [wRes 'a' 1, wRes 'b' 2, wRes 'c' 3]⟩], none⟩

def wTe : PDBModel := ⟨[⟨'B', [wRes 'x' 9]⟩], none⟩

def wChainB : Chain := ⟨'B', [wRes 'x' 7, wRes 'y' 8, wRes 'z' 9]⟩

def wM2 : PDBModel := ⟨[⟨'A', [wRes 'a' 1, wRes 'b' 2, wRes 'c' 3]⟩, wChainB], none⟩

def wTeB : PDBModel := ⟨[wChainB], none⟩

namespace PDBModel

/-- Total atom count of a chain list. -/
def catomsSum (cs : List Chain) : Nat := (cs.map catoms).sum

theorem sumRA_cons (r : Residue) (rs : List Residue) :
    sumRA (r :: rs) = r.atoms.length + sumRA rs := by
  simp [sumRA]

theorem sumRA_append (rs1 rs2 : List Residue) :
    sumRA (rs1 ++ rs2) = sumRA rs1 + sumRA rs2 := by
  simp [sumRA]

theorem catomsSum_cons (c : Chain) (cs : List Chain) :
    catomsSum (c :: cs) = catoms c + catomsSum cs := by
  simp [catomsSum]

theorem catomsSum_append (cs1 cs2 : List Chain) :
    catomsSum (cs1 ++ cs2) = catomsSum cs1 + catomsSum cs2 := by
  simp [catomsSum]

theorem catomsSum_flat (cs : List Chain) :
    catomsSum cs = sumRA (cs.flatMap (·.residues)) := by
  induction cs with
  | nil => simp [catomsSum, sumRA]
  | cons c cs ih => simp [catomsSum_cons, ih, sumRA_append, catoms]

theorem filterAtoms_all (p : Nat → Bool) (as : List Atom) :
    ∀ (off : Nat), (∀ i, off ≤ i → i < off + as.length → p i = true) →
      filterAtoms p off as = as := by
  induction as with
  | nil => intro off _; rfl
  | cons a as ih =>
      intro off h
      have h0 : p off = true := h off (Nat.le_refl _) (by simp)
      simp only [filterAtoms, h0, if_true]
      rw [ih (off + 1) (fun i h1 h2 => h i (by omega) (by simp at h2 ⊢; omega))]

theorem filterAtoms_none (p : Nat → Bool) (as : List Atom) :
    ∀ (off : Nat), (∀ i, off ≤ i → i < off + as.length → p i = false) →
      filterAtoms p off as = [] := by
  induction as with
  | nil => intro off _; rfl
  | cons a as ih =>
      intro off h
      have h0 : p off = false := h off (Nat.le_refl _) (by simp)
      simp only [filterAtoms, h0, if_false]
      exact ih (off + 1) (fun i h1 h2 => h i (by omega) (by simp at h2 ⊢; omega))

theorem filterResL_append (p : Nat → Bool) (rs1 : List Residue) :
    ∀ (off : Nat) (rs2 : List Residue),
      filterResL p off (rs1 ++ rs2) =
        filterResL p off rs1 ++ filterResL p (off + sumRA rs1) rs2 := by
  induction rs1 with
  | nil => intro off rs2; simp [filterResL, sumRA]
  | cons r rs ih =>
      intro off rs2
      simp only [List.cons_append, filterResL, List.append_eq]
      rw [ih]
      have e : off + r.atoms.length + sumRA rs = off + sumRA (r :: rs) := by
        rw [sumRA_cons]; omega
      rw [e]
      split <;> simp

theorem filterResL_all (p : Nat → Bool) (rs : List Residue) :
    ∀ (off : Nat), (∀ r ∈ rs, r.atoms ≠ []) →
      (∀ i, off ≤ i → i < off + sumRA rs → p i = true) →
      filterResL p off rs = rs := by
  induction rs with
  | nil => intro off _ _; rfl
  | cons r rs ih =>
      intro off hw h
      have ha : filterAtoms p off r.atoms = r.atoms :=
        filterAtoms_all p r.atoms off
          (fun i h1 h2 => h i h1 (by rw [sumRA_cons]; omega))
      have hne : r.atoms ≠ [] := hw r (by simp)
      have hrest : filterResL p (off + r.atoms.length) rs = rs :=
        ih (off + r.atoms.length) (fun x hx => hw x (by simp [hx]))
          (fun i h1 h2 => h i (by omega) (by rw [sumRA_cons]; omega))
      simp only [filterResL, ha, hrest]
      rw [if_neg]
      simp [List.isEmpty_iff, hne]

theorem filterResL_none (p : Nat → Bool) (rs : List Residue) :
    ∀ (off : Nat), (∀ i, off ≤ i → i < off + sumRA rs → p i = false) →
      filterResL p off rs = [] := by
  induction rs with
  | nil => intro off _; rfl
  | cons r rs ih =>
      intro off h
      have ha : filterAtoms p off r.atoms = [] :=
        filterAtoms_none p r.atoms off
          (fun i h1 h2 => h i h1 (by rw [sumRA_cons]; omega))
      have hrest : filterResL p (off + r.atoms.length) rs = [] :=
        ih (off + r.atoms.length)
          (fun i h1 h2 => h i (by omega) (by rw [sumRA_cons]; omega))
      simp [filterResL, ha, hrest]

theorem filterChainsL_append (p : Nat → Bool) (cs1 : List Chain) :
    ∀ (off : Nat) (cs2 : List Chain),
      filterChainsL p off (cs1 ++ cs2) =
        filterChainsL p off cs1 ++ filterChainsL p (off + catomsSum cs1) cs2 := by
  induction cs1 with
  | nil => intro off cs2; simp [filterChainsL, catomsSum]
  | cons c cs ih =>
      intro off cs2
      simp only [List.cons_append, filterChainsL, List.append_eq]
      rw [ih]
      have e : off + catoms c + catomsSum cs = off + catomsSum (c :: cs) := by
        rw [catomsSum_cons]; omega
      rw [e]
      split <;> simp

theorem filterChainsL_all (p : Nat → Bool) (cs : List Chain) :
    ∀ (off : Nat), (∀ c ∈ cs, c.residues ≠ [] ∧ ∀ r ∈ c.residues, r.atoms ≠ []) →
      (∀ i, off ≤ i → i < off + catomsSum cs → p i = true) →
      filterChainsL p off cs = cs := by
  induction cs with
  | nil => intro off _ _; rfl
  | cons c cs ih =>
      intro off hw h
      have hc := hw c (by simp)
      have ha : filterResL p off c.residues = c.residues :=
        filterResL_all p c.residues off hc.2
          (fun i h1 h2 => h i h1 (by
            rw [catomsSum_cons]
            have e : catoms c = sumRA c.residues := rfl
            omega))
      have hrest : filterChainsL p (off + catoms c) cs = cs :=
        ih (off + catoms c) (fun x hx => hw x (by simp [hx]))
          (fun i h1 h2 => h i (by omega) (by rw [catomsSum_cons]; omega))
      simp only [filterChainsL, ha, hrest]
      rw [if_neg]
      simp [List.isEmpty_iff, hc.1]

theorem filterChainsL_none (p : Nat → Bool) (cs : List Chain) :
    ∀ (off : Nat), (∀ i, off ≤ i → i < off + catomsSum cs → p i = false) →
      filterChainsL p off cs = [] := by
  induction cs with
  | nil => intro off _; rfl
  | cons c cs ih =>
      intro off h
      have ha : filterResL p off c.residues = [] :=
        filterResL_none p c.residues off
          (fun i h1 h2 => h i h1 (by
            rw [catomsSum_cons]
            have e : catoms c = sumRA c.residues := rfl
            omega))
      have hrest : filterChainsL p (off + catoms c) cs = [] :=
        ih (off + catoms c)
          (fun i h1 h2 => h i (by omega) (by rw [catomsSum_cons]; omega))
      simp [filterChainsL, ha, hrest]

theorem resList_filterChainsL (p : Nat → Bool) (cs : List Chain) :
    ∀ (off : Nat),
      (filterChainsL p off cs).flatMap (·.residues) =
        filterResL p off (cs.flatMap (·.residues)) := by
  induction cs with
  | nil => intro off; rfl
  | cons c cs ih =>
      intro off
      simp only [List.flatMap_cons, filterChainsL, filterResL_append]
      have e : sumRA c.residues = catoms c := rfl
      rw [e, ← ih (off + catoms c)]
      cases he : (filterResL p off c.residues).isEmpty with
      | true =>
          have h0 : filterResL p off c.residues = [] := by
            simpa [List.isEmpty_iff] using he
          simp [he, h0]
      | false => simp [he]

end PDBModel

namespace PDBModel

theorem resIndexAt_le (m : PDBModel) (a b : Nat) (h : a ≤ b) :
    m.resIndexAt a ≤ m.resIndexAt b := by
  unfold resIndexAt
  have e : b = a + (b - a) := by omega
  rw [e, List.take_add, sumRA_append]
  omega

theorem resIndexAt_succ (m : PDBModel) (a : Nat) (h : a < m.lenResidues) :
    m.resIndexAt (a + 1) = m.resIndexAt a + m.resLenAt a := by
  unfold resIndexAt resLenAt
  rw [List.take_succ, sumRA_append, List.get?_eq_getElem?]
  cases hg : m.resList[a]? with
  | none =>
      have hlt : a < m.resList.length := h
      rw [List.getElem?_eq_none_iff] at hg
      omega
  | some r => simp [hg, sumRA]

theorem resIndexAt_zero (m : PDBModel) : m.resIndexAt 0 = 0 := by
  simp [resIndexAt, sumRA]

theorem resIndexAt_full (m : PDBModel) :
    m.resIndexAt m.lenResidues = sumRA m.resList := by
  have : m.lenResidues = m.resList.length := rfl
  simp [resIndexAt, this]

theorem mem_res2atom_range (m : PDBModel) (k : Nat) :
    ∀ (a : Nat), a + k ≤ m.lenResidues →
      ∀ i, (i ∈ m.res2atomIndices (List.range' a k) ↔
        m.resIndexAt a ≤ i ∧ i < m.resIndexAt (a + k)) := by
  induction k with
  | zero =>
      intro a _ i
      simp only [Nat.add_zero]
      simp [res2atomIndices]
  | succ k ih =>
      intro a h i
      have ha : a < m.lenResidues := by omega
      have hr : List.range' a (k + 1) = a :: List.range' (a + 1) k := rfl
      rw [hr]
      simp only [res2atomIndices, List.flatMap_cons, List.mem_append,
        List.mem_range'_1]
      have ih' := ih (a + 1) (by omega) i
      simp only [res2atomIndices] at ih'
      rw [ih']
      have hs : m.resIndexAt (a + 1) = m.resIndexAt a + m.resLenAt a :=
        resIndexAt_succ m a ha
      have hmono : m.resIndexAt (a + 1) ≤ m.resIndexAt (a + 1 + k) :=
        resIndexAt_le m _ _ (by omega)
      have he : a + (k + 1) = a + 1 + k := by omega
      rw [he]
      omega

theorem mem_res2atom_01 (m : PDBModel) (h : 2 ≤ m.lenResidues) (i : Nat) :
    i ∈ m.res2atomIndices [0, 1] ↔ i < m.resIndexAt 2 := by
  have e : ([0, 1] : List Nat) = List.range' 0 2 := rfl
  rw [e, mem_res2atom_range m 2 0 (by omega) i]
  rw [resIndexAt_zero]
  simp only [Nat.zero_add]
  omega

theorem filterResL_prefixLem (p : Nat → Bool) (rs : List Residue) (j off : Nat)
    (hw : ∀ r ∈ rs, r.atoms ≠ [])
    (hT : ∀ i, off ≤ i → i < off + sumRA (rs.take j) → p i = true)
    (hF : ∀ i, off + sumRA (rs.take j) ≤ i → i < off + sumRA rs → p i = false) :
    filterResL p off rs = rs.take j := by
  conv_lhs => rw [← List.take_append_drop j rs]
  rw [filterResL_append]
  have hsum : sumRA (rs.take j) + sumRA (rs.drop j) = sumRA rs := by
    rw [← sumRA_append, List.take_append_drop]
  rw [filterResL_all p (rs.take j) off (fun r hr => hw r (List.mem_of_mem_take hr)) hT,
      filterResL_none p (rs.drop j) _ (fun i h1 h2 => hF i h1 (by omega)),
      List.append_nil]

theorem filterResL_suffixLem (p : Nat → Bool) (rs : List Residue) (j off : Nat)
    (hw : ∀ r ∈ rs, r.atoms ≠ [])
    (hF : ∀ i, off ≤ i → i < off + sumRA (rs.take j) → p i = false)
    (hT : ∀ i, off + sumRA (rs.take j) ≤ i → i < off + sumRA rs → p i = true) :
    filterResL p off rs = rs.drop j := by
  conv_lhs => rw [← List.take_append_drop j rs]
  rw [filterResL_append]
  have hsum : sumRA (rs.take j) + sumRA (rs.drop j) = sumRA rs := by
    rw [← sumRA_append, List.take_append_drop]
  rw [filterResL_none p (rs.take j) off hF,
      filterResL_all p (rs.drop j) _ (fun r hr => hw r (List.mem_of_mem_drop hr))
        (fun i h1 h2 => hT i h1 (by omega)),
      List.nil_append]

theorem resList_mk (cs : List Chain) (src : Option Str) :
    (PDBModel.mk cs src).resList = cs.flatMap (·.residues) := rfl

theorem resList_concat (m1 m2 : PDBModel) :
    (m1.concat m2).resList = m1.resList ++ m2.resList := by
  simp [concat, resList]

theorem sequence_concat (m1 m2 : PDBModel) :
    (m1.concat m2).sequence = m1.sequence ++ m2.sequence := by
  simp [sequence, resList_concat]

theorem sequence_length (m : PDBModel) : m.sequence.length = m.lenResidues := by
  simp [sequence, lenResidues]

theorem renumFrom_codes (n : Nat) (rs : List Residue) :
    (renumFrom n rs).map (·.code) = rs.map (·.code) := by
  induction rs generalizing n with
  | nil => rfl
  | cons r rs ih => simp [renumFrom, ih]

theorem renumFrom_nums (n : Nat) (rs : List Residue) :
    (renumFrom n rs).map (·.num) = List.range' n rs.length := by
  induction rs generalizing n with
  | nil => rfl
  | cons r rs ih =>
      have hr : List.range' n (rs.length + 1) = n :: List.range' (n + 1) rs.length := rfl
      simp [renumFrom, ih, hr]

theorem range'_app (s a b : Nat) :
    List.range' s a ++ List.range' (s + a) b = List.range' s (a + b) := by
  have h := List.range'_append s a b 1
  simp only [one_mul] at h
  rw [Nat.add_comm b a] at h
  exact h

theorem chainSeqs_renumChains (n : Nat) (cs : List Chain) :
    (renumChains n cs).map (fun c => c.residues.map (·.code)) =
      cs.map (fun c => c.residues.map (·.code)) := by
  induction cs generalizing n with
  | nil => rfl
  | cons c cs ih => simp [renumChains, renumFrom_codes, ih]

theorem chainSeqs_addCid (n : Nat) (cs : List Chain) :
    (addCid n cs).map (fun c => c.residues.map (·.code)) =
      cs.map (fun c => c.residues.map (·.code)) := by
  induction cs generalizing n with
  | nil => rfl
  | cons c cs ih => simp [addCid, ih]

theorem serialRes_codes (n : Nat) (rs : List Residue) :
    (serialRes n rs).map (·.code) = rs.map (·.code) := by
  induction rs generalizing n with
  | nil => rfl
  | cons r rs ih => simp [serialRes, ih]

theorem chainSeqs_serialChs (n : Nat) (cs : List Chain) :
    (serialChs n cs).map (fun c => c.residues.map (·.code)) =
      cs.map (fun c => c.residues.map (·.code)) := by
  induction cs generalizing n with
  | nil => rfl
  | cons c cs ih => simp [serialChs, serialRes_codes, ih]

theorem chainSeqs_renumberResidues (m : PDBModel) :
    m.renumberResidues.chainSeqs = m.chainSeqs := by
  simp [renumberResidues, chainSeqs, chainSeqs_renumChains]

theorem chainSeqs_addChainId (m : PDBModel) :
    m.addChainId.chainSeqs = m.chainSeqs := by
  simp [addChainId, chainSeqs, chainSeqs_addCid]

theorem chainSeqs_renumberSerials (m : PDBModel) :
    m.renumberSerials.chainSeqs = m.chainSeqs := by
  simp [renumberSerials, chainSeqs, chainSeqs_serialChs]

theorem sequence_eq_flatten (m : PDBModel) :
    m.sequence = m.chainSeqs.flatten := by
  simp only [sequence, chainSeqs, resList, List.flatMap_def]
  rw [List.map_flatten, List.map_map]
  rfl

theorem chainSeqs_concat (m1 m2 : PDBModel) :
    (m1.concat m2).chainSeqs = m1.chainSeqs ++ m2.chainSeqs := by
  simp [concat, chainSeqs]

theorem renumChains_nums (n : Nat) (cs : List Chain) :
    ((renumChains n cs).flatMap (·.residues)).map (·.num) =
      List.range' n (cs.flatMap (·.residues)).length := by
  induction cs generalizing n with
  | nil => rfl
  | cons c cs ih =>
      simp only [renumChains, List.flatMap_cons, List.map_append, renumFrom_nums,
        ih, List.length_append]
      exact range'_app n c.residues.length (cs.flatMap (·.residues)).length

theorem resNums_renumberResidues (m : PDBModel) :
    m.renumberResidues.resNums = List.range' 1 m.lenResidues := by
  simp [renumberResidues, resNums, resList, renumChains_nums, lenResidues]

theorem sequence_renumberResidues (m : PDBModel) :
    m.renumberResidues.sequence = m.sequence := by
  rw [sequence_eq_flatten, sequence_eq_flatten, chainSeqs_renumberResidues]

theorem sequence_addChainId (m : PDBModel) :
    m.addChainId.sequence = m.sequence := by
  rw [sequence_eq_flatten, sequence_eq_flatten, chainSeqs_addChainId]

theorem sequence_renumberSerials (m : PDBModel) :
    m.renumberSerials.sequence = m.sequence := by
  rw [sequence_eq_flatten, sequence_eq_flatten, chainSeqs_renumberSerials]

end PDBModel

namespace PDBModel

theorem WF_resList (m : PDBModel) (hw : m.WF) : ∀ r ∈ m.resList, r.atoms ≠ [] := by
  intro r hr
  simp only [resList, List.mem_flatMap] at hr
  obtain ⟨c, hc, hrc⟩ := hr
  exact (hw c hc).2 r hrc

theorem resList_restrict (m : PDBModel) (p : Nat → Bool) :
    (m.restrict p).resList = filterResL p 0 m.resList := by
  simp only [restrict, resList]
  exact resList_filterChainsL p m.chains 0

theorem sequence_take_res_prefix (m : PDBModel) (j : Nat) (hw : m.WF)
    (hj : j ≤ m.lenResidues) :
    (m.take (m.res2atomIndices (List.range' 0 j))).sequence = m.sequence.take j := by
  have hmem := mem_res2atom_range m j 0 (by omega)
  have hzj : m.resIndexAt (0 + j) = sumRA (m.resList.take j) := by
    simp [resIndexAt]
  unfold take
  simp only [sequence, resList_restrict]
  have hfilter :
      filterResL (fun i => decide (i ∈ m.res2atomIndices (List.range' 0 j))) 0
        m.resList = m.resList.take j := by
    apply filterResL_prefixLem _ _ j 0 (WF_resList m hw)
    · intro i h1 h2
      simp only [decide_eq_true_eq]
      rw [hmem i, resIndexAt_zero, hzj]
      omega
    · intro i h1 h2
      simp only [decide_eq_false_iff_not]
      rw [hmem i, resIndexAt_zero, hzj]
      omega
  rw [hfilter, List.map_take]

theorem sequence_take_res_suffix (m : PDBModel) (j : Nat) (hw : m.WF)
    (hj : j ≤ m.lenResidues) :
    (m.take (m.res2atomIndices (List.range' j (m.lenResidues - j)))).sequence
      = m.sequence.drop j := by
  have hmem := mem_res2atom_range m (m.lenResidues - j) j (by omega)
  have hfull : m.resIndexAt (j + (m.lenResidues - j)) = sumRA m.resList := by
    have e : j + (m.lenResidues - j) = m.lenResidues := by omega
    rw [e, resIndexAt_full]
  have hjv : m.resIndexAt j = sumRA (m.resList.take j) := rfl
  unfold take
  simp only [sequence, resList_restrict]
  have hfilter :
      filterResL
        (fun i => decide (i ∈ m.res2atomIndices (List.range' j (m.lenResidues - j))))
        0 m.resList = m.resList.drop j := by
    apply filterResL_suffixLem _ _ j 0 (WF_resList m hw)
    · intro i h1 h2
      simp only [decide_eq_false_iff_not]
      rw [hmem i, hjv, hfull]
      omega
    · intro i h1 h2
      simp only [decide_eq_true_eq]
      rw [hmem i, hjv, hfull]
      omega
  rw [hfilter, List.map_drop]

theorem take_res_prefix_single (cid : Char) (rs : List Residue) (src : Option Str)
    (hw : ∀ r ∈ rs, r.atoms ≠ []) (h2 : 2 ≤ rs.length) :
    (PDBModel.mk [⟨cid, rs⟩] src).take
        ((PDBModel.mk [⟨cid, rs⟩] src).res2atomIndices [0, 1]) =
      PDBModel.mk [⟨cid, rs.take 2⟩] none := by
  have hres : (PDBModel.mk [⟨cid, rs⟩] src).resList = rs := by
    simp [resList]
  have hlen : (PDBModel.mk [⟨cid, rs⟩] src).lenResidues = rs.length := by
    simp [lenResidues, hres]
  have hmem := mem_res2atom_01 (PDBModel.mk [⟨cid, rs⟩] src) (by omega)
  have h2v : (PDBModel.mk [⟨cid, rs⟩] src).resIndexAt 2 = sumRA (rs.take 2) := by
    simp [resIndexAt, hres]
  unfold take restrict
  have hfr : filterResL
      (fun i => decide (i ∈ (PDBModel.mk [⟨cid, rs⟩] src).res2atomIndices [0, 1]))
      0 rs = rs.take 2 := by
    apply filterResL_prefixLem _ _ 2 0 hw
    · intro i h1 hlt
      simp only [decide_eq_true_eq]
      rw [hmem i, h2v]
      omega
    · intro i hge hlt
      simp only [decide_eq_false_iff_not]
      rw [hmem i, h2v]
      omega
  have htk : (rs.take 2).length = 2 := by
    rw [List.length_take]; omega
  have hne2 : (rs.take 2).isEmpty = false := by
    cases he : rs.take 2 with
    | nil => rw [he] at htk; simp at htk
    | cons a l => simp
  simp only [filterChainsL, hfr, hne2]
  rfl

theorem take_res_suffix_single (cid : Char) (rs : List Residue) (src : Option Str)
    (hw : ∀ r ∈ rs, r.atoms ≠ []) (h3 : 3 ≤ rs.length) :
    (PDBModel.mk [⟨cid, rs⟩] src).take
        ((PDBModel.mk [⟨cid, rs⟩] src).res2atomIndices
          (List.range' 2 (rs.length - 2))) =
      PDBModel.mk [⟨cid, rs.drop 2⟩] none := by
  have hres : (PDBModel.mk [⟨cid, rs⟩] src).resList = rs := by
    simp [resList]
  have hlen : (PDBModel.mk [⟨cid, rs⟩] src).lenResidues = rs.length := by
    simp [lenResidues, hres]
  have hmem := mem_res2atom_range (PDBModel.mk [⟨cid, rs⟩] src) (rs.length - 2) 2
    (by omega)
  have h2v : (PDBModel.mk [⟨cid, rs⟩] src).resIndexAt 2 = sumRA (rs.take 2) := by
    simp [resIndexAt, hres]
  have hfull : (PDBModel.mk [⟨cid, rs⟩] src).resIndexAt (2 + (rs.length - 2))
      = sumRA rs := by
    have e : 2 + (rs.length - 2) = rs.length := by omega
    rw [e]
    have e2 : rs.length = (PDBModel.mk [⟨cid, rs⟩] src).lenResidues := hlen.symm
    rw [e2, resIndexAt_full, hres]
  unfold take restrict
  have hfr : filterResL
      (fun i => decide (i ∈ (PDBModel.mk [⟨cid, rs⟩] src).res2atomIndices
        (List.range' 2 (rs.length - 2)))) 0 rs = rs.drop 2 := by
    apply filterResL_suffixLem _ _ 2 0 hw
    · intro i h1 hlt
      simp only [decide_eq_false_iff_not]
      rw [hmem i, h2v, hfull]
      omega
    · intro i hge hlt
      simp only [decide_eq_true_eq]
      rw [hmem i, h2v, hfull]
      omega
  have htk : (rs.drop 2).length = rs.length - 2 := by
    rw [List.length_drop]
  have hne2 : (rs.drop 2).isEmpty = false := by
    cases he : rs.drop 2 with
    | nil => rw [he] at htk; simp at htk; omega
    | cons a l => simp
  simp only [filterChainsL, hfr, hne2]
  rfl

end PDBModel

namespace Ranch

theorem embed_sequence (dom te : PDBModel) (hw : dom.WF) (h3 : 3 ≤ dom.lenResidues) :
    (embed dom te).sequence =
      dom.sequence.take 2 ++ te.sequence ++ dom.sequence.drop 2 := by
  unfold embed
  rw [PDBModel.sequence_concat, PDBModel.sequence_concat]
  have e01 : dom.res2atomIndices [0, 1] =
      dom.res2atomIndices (List.range' 0 2) := rfl
  rw [e01, PDBModel.sequence_take_res_prefix dom 2 hw (by omega),
      PDBModel.sequence_take_res_suffix dom 2 hw (by omega)]

theorem embed_single (cid : Char) (rs : List Residue) (src : Option Str)
    (te : PDBModel) (hw : ∀ r ∈ rs, r.atoms ≠ []) (h3 : 3 ≤ rs.length) :
    embed (PDBModel.mk [⟨cid, rs⟩] src) te =
      PDBModel.mk (⟨cid, rs.take 2⟩ :: (te.chains ++ [⟨cid, rs.drop 2⟩])) none := by
  unfold embed
  have hlen : (PDBModel.mk [⟨cid, rs⟩] src).lenResidues = rs.length := by
    simp [PDBModel.lenResidues, PDBModel.resList]
  rw [PDBModel.take_res_prefix_single cid rs src hw (by omega), hlen,
      PDBModel.take_res_suffix_single cid rs src hw h3]
  simp [PDBModel.concat]

end Ranch

namespace Ranch

theorem extract_embed_single (cid : Char) (rs : List Residue) (te : PDBModel)
    (hw : ∀ r ∈ rs, r.atoms ≠ []) (h3 : 3 ≤ rs.length) (hwe : te.WF) :
    Ranch.extract_embedded
        (PDBModel.mk (⟨cid, rs.take 2⟩ :: (te.chains ++ [⟨cid, rs.drop 2⟩])) none)
        [(te, 2)] =
      .ok (((((PDBModel.mk [⟨cid, rs⟩] none).renumberResidues).concat
          (PDBModel.mk te.chains none)).addChainId).renumberSerials) := by
  set M := PDBModel.mk (⟨cid, rs.take 2⟩ :: (te.chains ++ [⟨cid, rs.drop 2⟩])) none
    with hM
  have hch : M.chains = ⟨cid, rs.take 2⟩ :: (te.chains ++ [⟨cid, rs.drop 2⟩]) := rfl
  have hsrc : M.source = none := rfl
  have htk2 : (rs.take 2).length = 2 := by rw [List.length_take]; omega
  have hdr : (rs.drop 2).length = rs.length - 2 := by rw [List.length_drop]
  have hwt2 : ∀ r ∈ rs.take 2, r.atoms ≠ [] := fun r hr => hw r (List.mem_of_mem_take hr)
  have hwd2 : ∀ r ∈ rs.drop 2, r.atoms ≠ [] := fun r hr => hw r (List.mem_of_mem_drop hr)
  have hres : M.resList = rs.take 2 ++ (te.resList ++ rs.drop 2) := by
    simp [hM, PDBModel.resList]
  have hLte : te.sequence.length = te.resList.length := by
    simp [PDBModel.sequence]
  have hres_take2 : M.resList.take 2 = rs.take 2 := by
    have h := List.take_left (rs.take 2) (te.resList ++ rs.drop 2)
    rw [htk2] at h
    rw [hres]; exact h
  have hresI2 : M.resIndexAt 2 = PDBModel.sumRA (rs.take 2) := by
    unfold PDBModel.resIndexAt
    rw [hres_take2]
  have hdrop2 : M.resList.drop 2 = te.resList ++ rs.drop 2 := by
    have h := List.drop_left (rs.take 2) (te.resList ++ rs.drop 2)
    rw [htk2] at h
    rw [hres]; exact h
  have hresI2L : M.resIndexAt (2 + te.sequence.length)
      = PDBModel.sumRA (rs.take 2) + PDBModel.sumRA te.resList := by
    unfold PDBModel.resIndexAt
    rw [List.take_add, hres_take2, hdrop2, hLte, List.take_left,
      PDBModel.sumRA_append]
  have hlenM : M.lenResidues = 2 + (te.resList.length + (rs.length - 2)) := by
    simp [PDBModel.lenResidues, hres, htk2, hdr]
  have hbound : 2 + te.sequence.length ≤ M.lenResidues := by
    rw [hlenM, hLte]; omega
  have hcat : PDBModel.catomsSum te.chains = PDBModel.sumRA te.resList := by
    rw [PDBModel.catomsSum_flat]; rfl
  have hmemT := PDBModel.mem_res2atom_range M te.sequence.length 2 hbound
  -- the takeResidues of the embedded span is exactly the embedded model
  have hTR : M.takeResidues (List.range' 2 te.sequence.length)
      = PDBModel.mk te.chains none := by
    unfold PDBModel.takeResidues PDBModel.take PDBModel.restrict
    have hfr1 : PDBModel.filterResL
        (fun i => decide (i ∈ M.res2atomIndices (List.range' 2 te.sequence.length)))
        0 (rs.take 2) = [] := by
      apply PDBModel.filterResL_none
      intro i h1 h2
      simp only [decide_eq_false_iff_not]
      rw [hmemT i, hresI2]
      omega
    have hfc_te : PDBModel.filterChainsL
        (fun i => decide (i ∈ M.res2atomIndices (List.range' 2 te.sequence.length)))
        (PDBModel.sumRA (rs.take 2)) te.chains = te.chains := by
      apply PDBModel.filterChainsL_all _ _ _ hwe
      intro i h1 h2
      simp only [decide_eq_true_eq]
      rw [hmemT i, hresI2, hresI2L]
      rw [hcat] at h2
      omega
    have hfc_cl : PDBModel.filterChainsL
        (fun i => decide (i ∈ M.res2atomIndices (List.range' 2 te.sequence.length)))
        (PDBModel.sumRA (rs.take 2) + PDBModel.catomsSum te.chains)
        [⟨cid, rs.drop 2⟩] = [] := by
      simp only [PDBModel.filterChainsL]
      have hfr2 : PDBModel.filterResL
          (fun i => decide (i ∈ M.res2atomIndices (List.range' 2 te.sequence.length)))
          (PDBModel.sumRA (rs.take 2) + PDBModel.catomsSum te.chains)
          (rs.drop 2) = [] := by
        apply PDBModel.filterResL_none
        intro i h1 h2
        simp only [decide_eq_false_iff_not]
        rw [hmemT i, hresI2, hresI2L]
        rw [hcat] at h1
        omega
      simp [hfr2]
    rw [hch]
    simp only [PDBModel.filterChainsL, hfr1, List.isEmpty_nil, if_true]
    have hc0 : PDBModel.catoms (⟨cid, rs.take 2⟩ : Chain)
        = PDBModel.sumRA (rs.take 2) := rfl
    rw [hc0, Nat.zero_add, PDBModel.filterChainsL_append, hfc_te, hfc_cl,
      List.append_nil]
  -- the sequence check of the first extract_embedded loop succeeds
  have hseq : M.sequence = (rs.take 2).map (·.code)
      ++ (te.sequence ++ (rs.drop 2).map (·.code)) := by
    simp [PDBModel.sequence, hres]
  have hcond : PDBModel.pySlice M.sequence 2 (2 + te.sequence.length)
      = te.sequence := by
    unfold PDBModel.pySlice
    have hsub : 2 + te.sequence.length - 2 = te.sequence.length := by omega
    rw [hsub, hseq]
    have hlen2 : ((rs.take 2).map (·.code)).length = 2 := by
      rw [List.length_map]; exact htk2
    have hd := List.drop_left ((rs.take 2).map (·.code))
      (te.sequence ++ (rs.drop 2).map (·.code))
    rw [hlen2] at hd
    rw [hd, List.take_left]
  have hcheck : Ranch.embCheck M [(te, 2)] PDBModel.empty []
      = .ok (PDBModel.mk te.chains none, [(2, 2 + te.sequence.length)]) := by
    simp only [Ranch.embCheck]
    rw [if_pos hcond]
    have hsub : 2 + te.sequence.length - 2 = te.sequence.length := by omega
    rw [hsub, hTR]
    simp [Ranch.embCheck, PDBModel.concat, PDBModel.empty]
  -- atom removal leaves exactly the host chain halves
  have hsub2 : M.resIndexAt (2 + te.sequence.length) - M.resIndexAt 2
      = PDBModel.sumRA te.resList := by
    rw [hresI2, hresI2L]; omega
  have hrm : Ranch.removeEmb [(2, 2 + te.sequence.length)] M
      = PDBModel.mk [⟨cid, rs.take 2⟩, ⟨cid, rs.drop 2⟩] none := by
    simp only [Ranch.removeEmb]
    rw [hsub2, hresI2]
    unfold PDBModel.remove
    have hp_lo : ∀ i, i < PDBModel.sumRA (rs.take 2) →
        (!(decide (i ∈ List.range' (PDBModel.sumRA (rs.take 2))
          (PDBModel.sumRA te.resList)))) = true := by
      intro i hi
      have hnot : ¬ (i ∈ List.range' (PDBModel.sumRA (rs.take 2))
          (PDBModel.sumRA te.resList)) := by
        rw [List.mem_range'_1]; omega
      simp [hnot]
    have hfr1 : PDBModel.filterResL
        (fun i => !(decide (i ∈ List.range' (PDBModel.sumRA (rs.take 2))
          (PDBModel.sumRA te.resList)))) 0 (rs.take 2) = rs.take 2 := by
      apply PDBModel.filterResL_all _ _ _ hwt2
      intro i h1 h2
      exact hp_lo i (by omega)
    have hfc_te : PDBModel.filterChainsL
        (fun i => !(decide (i ∈ List.range' (PDBModel.sumRA (rs.take 2))
          (PDBModel.sumRA te.resList)))) (PDBModel.sumRA (rs.take 2))
        te.chains = [] := by
      apply PDBModel.filterChainsL_none
      intro i h1 h2
      rw [hcat] at h2
      have hin : i ∈ List.range' (PDBModel.sumRA (rs.take 2))
          (PDBModel.sumRA te.resList) := by
        rw [List.mem_range'_1]; omega
      simp [hin]
    have hfc_cl : PDBModel.filterChainsL
        (fun i => !(decide (i ∈ List.range' (PDBModel.sumRA (rs.take 2))
          (PDBModel.sumRA te.resList))))
        (PDBModel.sumRA (rs.take 2) + PDBModel.catomsSum te.chains)
        [⟨cid, rs.drop 2⟩] = [⟨cid, rs.drop 2⟩] := by
      simp only [PDBModel.filterChainsL]
      have hfr2 : PDBModel.filterResL
          (fun i => !(decide (i ∈ List.range' (PDBModel.sumRA (rs.take 2))
            (PDBModel.sumRA te.resList))))
          (PDBModel.sumRA (rs.take 2) + PDBModel.catomsSum te.chains)
          (rs.drop 2) = rs.drop 2 := by
        apply PDBModel.filterResL_all _ _ _ hwd2
        intro i h1 h2
        rw [hcat] at h1
        have hnot : ¬ (i ∈ List.range' (PDBModel.sumRA (rs.take 2))
            (PDBModel.sumRA te.resList)) := by
          rw [List.mem_range'_1]; omega
        simp [hnot]
      have hne : (rs.drop 2).isEmpty = false := by
        cases he : rs.drop 2 with
        | nil =>
            rw [he] at hdr
            simp at hdr
            omega
        | cons a l => simp
      simp only [hfr2, hne, Bool.false_eq_true, if_false, PDBModel.filterChainsL]
    rw [hch]
    simp only [PDBModel.filterChainsL, hfr1]
    have hne2 : (rs.take 2).isEmpty = false := by
      cases he : rs.take 2 with
      | nil => rw [he] at htk2; simp at htk2
      | cons a l => simp
    rw [hne2]
    simp only [Bool.false_eq_true, if_false]
    have hc0 : PDBModel.catoms (⟨cid, rs.take 2⟩ : Chain)
        = PDBModel.sumRA (rs.take 2) := rfl
    rw [hc0, Nat.zero_add, PDBModel.filterChainsL_append, hfc_te, hfc_cl]
    rfl
  have hmerge : PDBModel.mergeLoop
      (PDBModel.mk [⟨cid, rs.take 2⟩, ⟨cid, rs.drop 2⟩] none)
      = PDBModel.mk [⟨cid, rs⟩] none := by
    simp [PDBModel.mergeLoop, PDBModel.lenChains, PDBModel.mergeN,
      PDBModel.mergeChains0, List.take_append_drop]
  have hsort : Ranch.sortDesc [(2, 2 + te.sequence.length)]
      = [(2, 2 + te.sequence.length)] := rfl
  simp only [Ranch.extract_embedded, hcheck, hsort, hrm, hmerge]

end Ranch

/-- Claim C1: for every single-chain PDBModel `dom` with at least 3 residues
and every PDBModel `to_embed`, `extract_embedded(embed(dom, to_embed),
{to_embed: 2})` returns a model whose sequence is `dom.sequence() +
to_embed.sequence()`, with the embedded domain recovered as independent
chain(s) concatenated after the original chain. -/
theorem claim_C1_round_trip (dom te : PDBModel)
    (h1 : dom.lenChains = 1) (h3 : 3 ≤ dom.lenResidues)
    (hwd : dom.WF) (hwe : te.WF) :
    ∃ res, Ranch.extract_embedded (Ranch.embed dom te) [(te, 2)] = .ok res ∧
      res.sequence = dom.sequence ++ te.sequence ∧
      res.chainSeqs = dom.sequence :: te.chainSeqs := by
  obtain ⟨cs, src⟩ := dom
  cases cs with
  | nil => simp [PDBModel.lenChains] at h1
  | cons c cs' =>
    cases cs' with
    | cons c2 cs'' =>
        simp [PDBModel.lenChains] at h1
    | nil =>
      obtain ⟨cid, rs⟩ := c
      have hw : ∀ r ∈ rs, r.atoms ≠ [] := by
        have hmem : (⟨cid, rs⟩ : Chain) ∈ (PDBModel.mk [⟨cid, rs⟩] src).chains := by
          simp
        exact (hwd _ hmem).2
      have h3' : 3 ≤ rs.length := by
        simpa [PDBModel.lenResidues, PDBModel.resList] using h3
      rw [Ranch.embed_single cid rs src te hw h3']
      refine ⟨_, Ranch.extract_embed_single cid rs te hw h3' hwe, ?_, ?_⟩
      · rw [PDBModel.sequence_renumberSerials, PDBModel.sequence_addChainId,
          PDBModel.sequence_concat, PDBModel.sequence_renumberResidues]
        simp [PDBModel.sequence, PDBModel.resList]
      · rw [PDBModel.chainSeqs_renumberSerials, PDBModel.chainSeqs_addChainId,
          PDBModel.chainSeqs_concat, PDBModel.chainSeqs_renumberResidues]
        simp [PDBModel.chainSeqs, PDBModel.sequence, PDBModel.resList]

/-- Witness for C1 at a concrete 3-residue host and a 1-residue embedded
model. -/
theorem claim_C1_witness :
    ∃ res, Ranch.extract_embedded (Ranch.embed wDom wTe) [(wTe, 2)] = .ok res ∧
      res.sequence = wDom.sequence ++ wTe.sequence ∧
      res.chainSeqs = wDom.sequence :: wTe.chainSeqs :=
  claim_C1_round_trip wDom wTe (by decide) (by decide) (by decide) (by decide)

/-- Claim C2: `embed(dom, to_embed)` inserts the embedded model right after
the first two residues of the host (`sequence` becomes
`dom.sequence()[:2] + to_embed.sequence() + dom.sequence()[2:]`), and the
`_setup` loop records the embedded domain's start position as the length of
the sequence accumulated so far plus 2. -/
theorem claim_C2_embed_position :
    (∀ (dom te : PDBModel), dom.WF → 3 ≤ dom.lenResidues →
      (Ranch.embed dom te).sequence =
        dom.sequence.take 2 ++ te.sequence ++ dom.sequence.drop 2) ∧
    (∀ (chainsMap : List (PDBModel × ChainsVal)) (su : Str)
        (fixed multich : List Str) (m : PDBModel) (i : Nat)
        (σ : Ranch.SetupState) (c : Char) (ci : Nat) (te : PDBModel),
      multich.getD i [] ≠ (("yes").toList) →
      ¬ m.lenChains = 1 →
      fixed.getD i [] ≠ (("yes").toList) →
      lookupD chainsMap m = some (.one c) →
      (m.atom2chainIndices (nonzeroIdx (m.maskChainId c))).head? = some ci →
      Ranch.extract_fixed (m.takeChains [ci]) m = .ok te →
      Ranch.setupLoop chainsMap su fixed multich [.modElem m] i σ =
        .ok { sequence := σ.sequence ++ (Ranch.embed (m.takeChains [ci]) te).sequence,
              doms_in := σ.doms_in ++ [Ranch.embed (m.takeChains [ci]) te],
              embedded := σ.embedded ++ [(te, σ.sequence.length + 2)] }) := by
  constructor
  · intro dom te hwf h3
    exact Ranch.embed_sequence dom te hwf h3
  · intro chainsMap su fixed multich m i σ c ci te h1 h2 h3 hlk hci hex
    have hor : ¬ (m.lenChains = 1 ∨ fixed.getD i [] = (("yes").toList)) :=
      fun hq => hq.elim h2 h3
    simp only [Ranch.setupLoop, if_neg h1, if_neg hor, hlk]
    simp only [Ranch.processPaired, hci, hex]

/-- Witness for C2: the sequence identity at the concrete host/insert pair,
and the `_setup` single-chain-selection step at a concrete two-chain domain. -/
theorem claim_C2_witness :
    (Ranch.embed wDom wTe).sequence =
        wDom.sequence.take 2 ++ wTe.sequence ++ wDom.sequence.drop 2 ∧
    Ranch.setupLoop [(wM2, .one 'A')] [] [(("no").toList)] [(("no").toList)]
        [.modElem wM2] 0 {} =
      .ok { sequence := [] ++ (Ranch.embed (wM2.takeChains [0]) wTeB).sequence,
            doms_in := [] ++ [Ranch.embed (wM2.takeChains [0]) wTeB],
            embedded := [] ++ [(wTeB, ([] : Str).length + 2)] } :=
  ⟨claim_C2_embed_position.1 wDom wTe (by decide) (by decide),
   claim_C2_embed_position.2 [(wM2, .one 'A')] [] [(("no").toList)]
     [(("no").toList)] wM2 0 {} 'A' 0 wTeB (by decide) (by decide) (by decide)
     (by decide) (by decide) (by rfl)⟩

/-- Claim C9: when the `_setup` loop meets a PDBModel that is not handled by
the symtemplate branch (`multich[i] ≠ 'yes'`), has more than one chain, is not
fixed, and whose `chains` entry is a list/tuple, the loop `break`s there: the
remaining domain elements contribute nothing to the result. -/
theorem claim_C9_break (chainsMap : List (PDBModel × ChainsVal)) (su : Str)
    (fixed multich : List Str) (m : PDBModel) (i : Nat)
    (σ : Ranch.SetupState) (l : List Char)
    (h1 : multich.getD i [] ≠ (("yes").toList))
    (h2 : ¬ m.lenChains = 1)
    (h3 : fixed.getD i [] ≠ (("yes").toList))
    (hlk : lookupD chainsMap m = some (.many l)) :
    ∀ rest, Ranch.setupLoop chainsMap su fixed multich (.modElem m :: rest) i σ
      = Ranch.setupLoop chainsMap su fixed multich [.modElem m] i σ := by
  intro rest
  have hor : ¬ (m.lenChains = 1 ∨ fixed.getD i [] = (("yes").toList)) :=
    fun hq => hq.elim h2 h3
  simp only [Ranch.setupLoop, if_neg h1, if_neg hor, hlk]

/-- Witness for C9: a concrete two-chain domain with a tuple `chains` entry,
followed by a further domain element that indeed does not change the
outcome. -/
theorem claim_C9_witness :
    Ranch.setupLoop [(wM2, .many ['A'])] [] [(("no").toList)] [(("no").toList)]
        (.modElem wM2 :: [.strElem (("GGG").toList)]) 0 {}
      = Ranch.setupLoop [(wM2, .many ['A'])] [] [(("no").toList)]
          [(("no").toList)] [.modElem wM2] 0 {} :=
  claim_C9_break [(wM2, .many ['A'])] [] [(("no").toList)] [(("no").toList)]
    wM2 0 {} ['A'] (by decide) (by decide) (by decide) (by decide)
    [.strElem (("GGG").toList)]

theorem embCheck_err (full : PDBModel) :
    ∀ (entries : List (PDBModel × Nat)) (r : PDBModel) (inds : List (Nat × Nat)),
      ((∃ u, Ranch.embCheck full entries r inds = .error u) ↔
        ∃ p ∈ entries,
          PDBModel.pySlice full.sequence p.2 (p.2 + p.1.sequence.length)
            ≠ p.1.sequence) := by
  intro entries
  induction entries with
  | nil =>
      intro r inds
      simp [Ranch.embCheck]
  | cons p rest ih =>
      intro r inds
      obtain ⟨dom, i_start⟩ := p
      by_cases hc : PDBModel.pySlice full.sequence i_start
          (i_start + dom.sequence.length) = dom.sequence
      · simp only [Ranch.embCheck, if_pos hc]
        rw [ih]
        constructor
        · rintro ⟨q, hq, hne⟩
          exact ⟨q, List.mem_cons_of_mem _ hq, hne⟩
        · rintro ⟨q, hq, hne⟩
          rcases List.mem_cons.mp hq with h | h
          · subst h
            exact absurd hc hne
          · exact ⟨q, h, hne⟩
      · simp only [Ranch.embCheck, if_neg hc]
        constructor
        · intro _
          exact ⟨(dom, i_start), by simp, hc⟩
        · intro _
          exact ⟨(), trivial⟩

/-- Claim C8: `extract_embedded` raises its `TypeError` exactly when some
entry `(dom, i_start)` of the embedded dictionary has
`full.sequence()[i_start : i_start + len(dom.sequence())] ≠ dom.sequence()`;
at the moment it raises, `full` is still unmutated (all atom removals happen
after every entry has been checked). -/
theorem claim_C8_check_first (full : PDBModel) (embedded : List (PDBModel × Nat)) :
    ((∃ e, Ranch.extract_embedded full embedded = .error e) ↔
      ∃ p ∈ embedded,
        PDBModel.pySlice full.sequence p.2 (p.2 + p.1.sequence.length)
          ≠ p.1.sequence) ∧
    ∀ e, Ranch.extract_embedded full embedded = .error e → e = full := by
  constructor
  · constructor
    · rintro ⟨e, he⟩
      cases hcE : Ranch.embCheck full embedded PDBModel.empty [] with
      | error u =>
          exact (embCheck_err full embedded PDBModel.empty []).mp ⟨u, hcE⟩
      | ok pr =>
          obtain ⟨r, inds⟩ := pr
          simp [Ranch.extract_embedded, hcE] at he
    · intro hex
      obtain ⟨u, hu⟩ := (embCheck_err full embedded PDBModel.empty []).mpr hex
      refine ⟨full, ?_⟩
      simp only [Ranch.extract_embedded, hu]
  · intro e he
    cases hcE : Ranch.embCheck full embedded PDBModel.empty [] with
    | error u =>
        simp only [Ranch.extract_embedded, hcE] at he
        cases he
        rfl
    | ok pr =>
        obtain ⟨r, inds⟩ := pr
        simp [Ranch.extract_embedded, hcE] at he

/-- Witness for C8 at a concrete mismatching embedded dictionary. -/
theorem claim_C8_witness :
    (∃ e, Ranch.extract_embedded wDom [(wDom, 5)] = .error e) ∧ wDom = wDom :=
  ⟨(claim_C8_check_first wDom [(wDom, 5)]).1.mpr (by decide),
   (claim_C8_check_first wDom [(wDom, 5)]).2 wDom (by rfl)⟩

theorem isPrefixOf_ex : ∀ (p s : Str), p.isPrefixOf s = true ↔ ∃ t, s = p ++ t := by
  intro p
  induction p with
  | nil =>
      intro s
      simp [List.isPrefixOf]
  | cons c p ih =>
      intro s
      cases s with
      | nil =>
          simp [List.isPrefixOf]
      | cons d s' =>
          simp only [List.isPrefixOf, Bool.and_eq_true, beq_iff_eq, ih,
            List.cons_append, List.cons.injEq]
          constructor
          · rintro ⟨hcd, t, ht⟩
            exact ⟨t, hcd.symm, ht⟩
          · rintro ⟨t, hdc, ht⟩
            exact ⟨hdc.symm, t, ht⟩

theorem pySub_iff (pat : Str) :
    ∀ (s : Str), pySub pat s = true ↔ ∃ u v, s = u ++ pat ++ v := by
  intro s
  induction s with
  | nil =>
      simp only [pySub, isPrefixOf_ex]
      constructor
      · rintro ⟨t, ht⟩
        exact ⟨[], t, by simpa using ht⟩
      · rintro ⟨u, v, huv⟩
        rcases List.append_eq_nil.mp huv.symm with ⟨h1, hv⟩
        rcases List.append_eq_nil.mp h1 with ⟨hu, hp⟩
        exact ⟨[], by simp [hp]⟩
  | cons c s' ih =>
      simp only [pySub, Bool.or_eq_true, isPrefixOf_ex, ih]
      constructor
      · rintro (⟨t, ht⟩ | ⟨u, v, huv⟩)
        · exact ⟨[], t, by simpa using ht⟩
        · exact ⟨c :: u, v, by simp [huv]⟩
      · rintro ⟨u, v, huv⟩
        cases u with
        | nil =>
            left
            exact ⟨v, by simpa using huv⟩
        | cons a u' =>
            right
            simp only [List.cons_append, List.cons.injEq] at huv
            exact ⟨u', v, huv.2⟩

/-- Claim C3: `Ranch.isFailed` is true exactly when the base-class error flag
is set or `'Problems'` occurs as a substring of the captured output; with the
flag unset and no such substring it returns false. -/
theorem claim_C3_isFailed :
    (∀ (error : Bool) (output : Str),
      Ranch.isFailed error output = true ↔
        error = true ∨ ∃ u v, output = u ++ (("Problems").toList) ++ v) ∧
    (∀ (error : Bool) (output : Str), error = false →
      (¬ ∃ u v, output = u ++ (("Problems").toList) ++ v) →
      Ranch.isFailed error output = false) := by
  have hmain : ∀ (error : Bool) (output : Str),
      Ranch.isFailed error output = true ↔
        error = true ∨ ∃ u v, output = u ++ (("Problems").toList) ++ v := by
    intro error output
    simp only [Ranch.isFailed, Bool.or_eq_true, pySub_iff]
  refine ⟨hmain, ?_⟩
  intro error output herr hnot
  cases hf : Ranch.isFailed error output with
  | false => rfl
  | true =>
      rcases (hmain error output).mp hf with h | h
      · rw [herr] at h
        cases h
      · exact absurd h hnot

/-- Witness for C3: with the error flag unset and output lacking `Problems`,
`isFailed` returns false. -/
theorem claim_C3_witness :
    Ranch.isFailed false (("all fine").toList) = false :=
  claim_C3_isFailed.2 false (("all fine").toList) (by rfl)
    (fun h => absurd ((pySub_iff (("Problems").toList) (("all fine").toList)).mpr h)
      (by decide))

/-- Claim C7: for both Ranch and Pulchra, `cleanup` removes the per-call
temporary directory tree exactly when `debug` is false, and each constructor
obtains a fresh temporary directory per instantiation (two successive
instantiations never share one). -/
theorem claim_C7_cleanup :
    (∀ t : Nat, Ranch.cleanup false t = [t] ∧ Ranch.cleanup true t = []) ∧
    (∀ t : Nat, Pulchra.cleanup false t = [t] ∧ Pulchra.cleanup true t = []) ∧
    (∀ st : Nat,
      (Ranch.initDirs st).1.1 ≠ (Ranch.initDirs (Ranch.initDirs st).2).1.1 ∧
      (Ranch.initDirs st).1.1 ≠ (Ranch.initDirs st).1.2 ∧
      (Pulchra.initDir st).1 ≠ (Pulchra.initDir (Pulchra.initDir st).2).1) := by
  refine ⟨fun t => ⟨rfl, rfl⟩, fun t => ⟨rfl, rfl⟩, fun st => ⟨?_, ?_, ?_⟩⟩
  · simp [Ranch.initDirs, mkdtemp]
    omega
  · simp [Ranch.initDirs, mkdtemp]
  · simp [Pulchra.initDir, mkdtemp]

/-- Claim C10: the constructor accepts exactly the `overall_sym` values
`mixed`, `symmetry` and `asymmetry` (stored as `m`, `s`, `a`); any other value
raises `KeyError` before any domain processing. -/
theorem claim_C10_overall_sym :
    (lookupD Ranch.overall_symmetry (("mixed").toList) = some (("m").toList)) ∧
    (lookupD Ranch.overall_symmetry (("symmetry").toList) = some (("s").toList)) ∧
    (lookupD Ranch.overall_symmetry (("asymmetry").toList) = some (("a").toList)) ∧
    (∀ s' : Str,
      s' ∉ [(("mixed").toList), (("symmetry").toList), (("asymmetry").toList)] →
      ∀ (st : Nat) (domains : List DomainElem)
        (chainsMap : List (PDBModel × ChainsVal))
        (symtemplate symunit : Option PDBModel)
        (fixed multich : Option (List Str)),
        Ranch.ranchInit st domains chainsMap symtemplate symunit s' fixed multich
          = .error .keyErr) ∧
    (∀ (s' code : Str), lookupD Ranch.overall_symmetry s' = some code →
      ∀ (st : Nat) (domains : List DomainElem)
        (chainsMap : List (PDBModel × ChainsVal))
        (symtemplate symunit : Option PDBModel)
        (fixed multich : Option (List Str)) (obj : Ranch.RanchObj),
        Ranch.ranchInit st domains chainsMap symtemplate symunit s' fixed multich
          = .ok obj → obj.overall_sym = code) := by
  refine ⟨rfl, rfl, rfl, ?_, ?_⟩
  · intro s' hmem st domains chainsMap symtemplate symunit fixed multich
    have h1 : ¬ ((("mixed").toList) = s') := fun h => hmem (by rw [← h]; simp)
    have h2 : ¬ ((("symmetry").toList) = s') := fun h => hmem (by rw [← h]; simp)
    have h3 : ¬ ((("asymmetry").toList) = s') := fun h => hmem (by rw [← h]; simp)
    have hnone : lookupD Ranch.overall_symmetry s' = none := by
      simp only [Ranch.overall_symmetry, lookupD, if_neg h1, if_neg h2, if_neg h3]
    simp [Ranch.ranchInit, mkdtemp, hnone]
  · intro s' code hlk st domains chainsMap symtemplate symunit fixed multich obj hok
    simp only [Ranch.ranchInit, mkdtemp, hlk] at hok
    split at hok
    · cases hok
    · cases hok
      rfl

/-- Witness for C10: a bad key raises, and the accepted key `symmetry` stores
`s`. -/
theorem claim_C10_witness :
    Ranch.ranchInit 0 [] [] none none (("sym").toList) none none
        = .error .keyErr ∧
    ∀ obj : Ranch.RanchObj,
      Ranch.ranchInit 0 [] [] none none (("symmetry").toList) none none
        = .ok obj → obj.overall_sym = (("s").toList) :=
  ⟨claim_C10_overall_sym.2.2.2.1 (("sym").toList) (by decide) 0 [] [] none none
      none none,
   fun obj hok => claim_C10_overall_sym.2.2.2.2 (("symmetry").toList)
      (("s").toList) rfl 0 [] [] none none none none obj hok⟩

theorem mapExc_ok {α β ε : Type} (f : α → Except ε β) :
    ∀ (l : List α) (res : List β), mapExc f l = .ok res →
      res.length = l.length ∧
      ∀ (k : Nat) (x : α), l.get? k = some x →
        ∃ y, res.get? k = some y ∧ f x = .ok y := by
  intro l
  induction l with
  | nil =>
      intro res h
      simp only [mapExc] at h
      cases h
      exact ⟨rfl, fun k x hx => by simp at hx⟩
  | cons a l ih =>
      intro res h
      simp only [mapExc] at h
      cases hf : f a with
      | error e => rw [hf] at h; cases h
      | ok y =>
          rw [hf] at h
          cases hr : mapExc f l with
          | error e => rw [hr] at h; cases h
          | ok ys =>
              rw [hr] at h
              cases h
              obtain ⟨hlen, hpt⟩ := ih ys hr
              refine ⟨by simp [hlen], ?_⟩
              intro k x hx
              cases k with
              | zero =>
                  simp only [List.get?] at hx
                  cases hx
                  exact ⟨y, rfl, hf⟩
              | succ k' =>
                  simp only [List.get?] at hx ⊢
                  exact hpt k' x hx

theorem mapError_ok {α ε ε' : Type} (e : Except ε α) (g : ε → ε') (b : α) :
    e.mapError g = .ok b ↔ e = .ok b := by
  cases e <;> simp [Except.mapError]

/-- Claim C6: after a successful run, `Ranch.finish` turns every file of the
models directory into one result model — `extract_symmetric` of the parsed
file when a symtemplate was given, `extract_embedded` of it otherwise — and
`Pulchra.finish` reads the single `.rebuilt.pdb` model and renumbers its
residues (sequence kept, residue numbers 1, 2, …). -/
theorem claim_C6_finish :
    (∀ (listing : List Str) (load : Str → PDBModel) (dir_models : Str)
        (symseq : Str) (embedded : List (PDBModel × Nat)) (res : List PDBModel),
      Ranch.finishRanch listing load dir_models true symseq embedded = .ok res →
        res.length = listing.length ∧
        ∀ (k : Nat) (f : Str), listing.get? k = some f →
          ∃ y, res.get? k = some y ∧
            Ranch.extract_symmetric (load (dir_models ++ (("/").toList) ++ f))
              symseq embedded = .ok y) ∧
    (∀ (listing : List Str) (load : Str → PDBModel) (dir_models : Str)
        (symseq : Str) (embedded : List (PDBModel × Nat)) (res : List PDBModel),
      Ranch.finishRanch listing load dir_models false symseq embedded = .ok res →
        res.length = listing.length ∧
        ∀ (k : Nat) (f : Str), listing.get? k = some f →
          ∃ y, res.get? k = some y ∧
            Ranch.extract_embedded (load (dir_models ++ (("/").toList) ++ f))
              embedded = .ok y) ∧
    (∀ (load : Str → PDBModel) (rb_path : Str),
      Pulchra.finish load rb_path = (load rb_path).renumberResidues ∧
      (Pulchra.finish load rb_path).sequence = (load rb_path).sequence ∧
      (Pulchra.finish load rb_path).resNums =
        List.range' 1 (load rb_path).lenResidues) := by
  refine ⟨?_, ?_, ?_⟩
  · intro listing load dir_models symseq embedded res h
    simp only [Ranch.finishRanch, if_true] at h
    obtain ⟨hlen, hpt⟩ := mapExc_ok _ _ res h
    refine ⟨by rw [hlen, List.length_map], ?_⟩
    intro k f hk
    have hk' : (listing.map (fun f => dir_models ++ (("/").toList) ++ f)).get? k
        = some (dir_models ++ (("/").toList) ++ f) := by
      rw [List.get?_map, hk]
      rfl
    exact hpt k _ hk'
  · intro listing load dir_models symseq embedded res h
    simp only [Ranch.finishRanch, Bool.false_eq_true, if_false] at h
    obtain ⟨hlen, hpt⟩ := mapExc_ok _ _ res h
    refine ⟨by rw [hlen, List.length_map], ?_⟩
    intro k f hk
    have hk' : (listing.map (fun f => dir_models ++ (("/").toList) ++ f)).get? k
        = some (dir_models ++ (("/").toList) ++ f) := by
      rw [List.get?_map, hk]
      rfl
    obtain ⟨y, hy, hfy⟩ := hpt k _ hk'
    exact ⟨y, hy, (mapError_ok _ _ _).mp hfy⟩
  · intro load rb_path
    refine ⟨rfl, ?_, ?_⟩
    · exact PDBModel.sequence_renumberResidues (load rb_path)
    · exact PDBModel.resNums_renumberResidues (load rb_path)


/-- Witness for C6: a one-file listing in the non-symmetric branch (the file
parses to a host whose embedded dictionary is empty), and the Pulchra read of
a concrete model. -/
theorem claim_C6_witness :
    ([wDom].length = [(("f1").toList)].length ∧
      ∀ (k : Nat) (f : Str), [(("f1").toList)].get? k = some f →
        ∃ y, [wDom].get? k = some y ∧
          Ranch.extract_embedded wDom [] = .ok y) ∧
    ((Pulchra.finish (fun _ => wDom) (("p").toList)).resNums
      = List.range' 1 wDom.lenResidues) :=
  ⟨claim_C6_finish.2.1 [(("f1").toList)] (fun _ => wDom) (("d").toList) [] []
      [wDom] (by rfl),
   (claim_C6_finish.2.2 (fun _ => wDom) (("p").toList)).2.2⟩

theorem pyFormat_sy (a b : Str) :
    pyFormat ((" -s=%s -y=%s").toList) [a, b]
      = ((" -s=").toList) ++ a ++ (((" -y=").toList) ++ b) := by
  have h : pyFormat ((" -s=%s -y=%s").toList) [a, b]
      = ((" -s=").toList) ++ a ++ (((" -y=").toList) ++ (b ++ [])) := rfl
  rw [h, List.append_nil]

theorem pyFormat_w (d : Str) :
    pyFormat ((" -w=%s").toList) [d] = ((" -w=").toList) ++ d := by
  have h : pyFormat ((" -w=%s").toList) [d]
      = ((" -w=").toList) ++ (d ++ []) := rfl
  rw [h, List.append_nil]

theorem pyFormat_x : ∀ (vs : List Str),
    pyFormat (List.flatten (List.replicate vs.length ((" -x=%s").toList))) vs
      = vs.flatMap (fun v => ((" -x=").toList) ++ v) := by
  intro vs
  induction vs with
  | nil => rfl
  | cons v vs ih =>
      have hstep : List.flatten (List.replicate (v :: vs).length ((" -x=%s").toList))
          = ((" -x=%s").toList)
            ++ List.flatten (List.replicate vs.length ((" -x=%s").toList)) := by
        simp [List.replicate_succ]
      have h2 : ∀ R : Str, pyFormat (((" -x=%s").toList) ++ R) (v :: vs)
          = ((" -x=").toList) ++ (v ++ pyFormat R vs) := fun R => rfl
      rw [hstep, h2, ih]
      simp [List.flatMap_cons, List.append_assoc]

theorem pyFormat_f : ∀ (vs : List Str),
    pyFormat (List.flatten (List.replicate vs.length ((" -f=%s").toList))) vs
      = vs.flatMap (fun v => ((" -f=").toList) ++ v) := by
  intro vs
  induction vs with
  | nil => rfl
  | cons v vs ih =>
      have hstep : List.flatten (List.replicate (v :: vs).length ((" -f=%s").toList))
          = ((" -f=%s").toList)
            ++ List.flatten (List.replicate vs.length ((" -f=%s").toList)) := by
        simp [List.replicate_succ]
      have h2 : ∀ R : Str, pyFormat (((" -f=%s").toList) ++ R) (v :: vs)
          = ((" -f=").toList) ++ (v ++ pyFormat R vs) := fun R => rfl
      rw [hstep, h2, ih]
      simp [List.flatMap_cons, List.append_assoc]

theorem pyFormat_o : ∀ (vs : List Str),
    pyFormat (List.flatten (List.replicate vs.length ((" -o=%s").toList))) vs
      = vs.flatMap (fun v => ((" -o=").toList) ++ v) := by
  intro vs
  induction vs with
  | nil => rfl
  | cons v vs ih =>
      have hstep : List.flatten (List.replicate (v :: vs).length ((" -o=%s").toList))
          = ((" -o=%s").toList)
            ++ List.flatten (List.replicate vs.length ((" -o=%s").toList)) := by
        simp [List.replicate_succ]
      have h2 : ∀ R : Str, pyFormat (((" -o=%s").toList) ++ R) (v :: vs)
          = ((" -o=").toList) ++ (v ++ pyFormat R vs) := fun R => rfl
      rw [hstep, h2, ih]
      simp [List.flatMap_cons, List.append_assoc]

theorem pdbWritesAux_snd (tempdir : Str) :
    ∀ (doms : List PDBModel) (i : Nat),
      (Ranch.pdbWritesAux tempdir i doms).map Prod.snd = doms := by
  intro doms
  induction doms with
  | nil => intro i; rfl
  | cons d ds ih =>
      intro i
      simp only [Ranch.pdbWritesAux, List.map_cons, ih]

/-- Claim C4: `Ranch.prepare` builds the RANCH argument string in the fixed
order — sequence file, `-q=10 -i`, `-s=…`, `-y=…`, one `-x=` per input pdb
path in list order, one `-f=` per `fixed` entry, one `-o=` per `multich`
entry, and `-w=…` — and writes one pdb file per domain of `doms_in` plus the
sequence to the sequence file. -/
theorem claim_C4_prepare (st : Ranch.RanchSt) :
    (Ranch.prepare st).args =
      st.f_seq ++ ((" -q=10 -i").toList)
        ++ (((" -s=").toList) ++ st.symmetry ++ (((" -y=").toList) ++ st.overall_sym))
        ++ ((Ranch.prepare st).pdbs_in).flatMap (fun p => ((" -x=").toList) ++ p)
        ++ (st.fixed).flatMap (fun x => ((" -f=").toList) ++ x)
        ++ (st.multich).flatMap (fun o => ((" -o=").toList) ++ o)
        ++ (((" -w=").toList) ++ st.dir_models) ∧
    ((Ranch.prepare st).pdbWrites).map Prod.snd = st.doms_in ∧
    (Ranch.prepare st).pdbs_in = ((Ranch.prepare st).pdbWrites).map Prod.fst ∧
    (Ranch.prepare st).seqWrite = (st.f_seq, st.sequence) := by
  refine ⟨?_, ?_, rfl, rfl⟩
  · simp only [Ranch.prepare]
    rw [pyFormat_sy, pyFormat_x, pyFormat_f, pyFormat_o, pyFormat_w]
  · simp only [Ranch.prepare]
    exact pdbWritesAux_snd st.tempdir st.doms_in 0

theorem occsAux_bound (pat : Str) :
    ∀ (fuel : Nat) (s : Str) (pos : Nat), ∀ i ∈ occsAux pat fuel s pos,
      pos ≤ i ∧ i + pat.length ≤ pos + s.length := by
  intro fuel
  induction fuel with
  | zero =>
      intro s pos i hi
      simp [occsAux] at hi
  | succ fuel ih =>
      intro s pos i hi
      cases s with
      | nil => simp [occsAux] at hi
      | cons c s' =>
          simp only [occsAux] at hi
          by_cases hpre : pat.isPrefixOf (c :: s') = true
          · rw [if_pos hpre] at hi
            rcases List.mem_cons.mp hi with h | h
            · subst h
              obtain ⟨t, ht⟩ := (isPrefixOf_ex pat (c :: s')).mp hpre
              have hlen : (c :: s').length = pat.length + t.length := by
                rw [ht, List.length_append]
              simp only [List.length_cons] at hlen ⊢
              omega
            · obtain ⟨h1, h2⟩ := ih _ _ i h
              obtain ⟨t, ht⟩ := (isPrefixOf_ex pat (c :: s')).mp hpre
              have hlen : (c :: s').length = pat.length + t.length := by
                rw [ht, List.length_append]
              rw [List.length_drop] at h2
              simp only [List.length_cons] at hlen h2 ⊢
              omega
          · rw [if_neg hpre] at hi
            obtain ⟨h1, h2⟩ := ih s' (pos + 1) i hi
            simp only [List.length_cons]
            omega

theorem occs_bound (pat s : Str) (hp : pat ≠ []) :
    ∀ i ∈ occs pat s, i + pat.length ≤ s.length := by
  intro i hi
  unfold occs at hi
  have he : pat.isEmpty = false := by
    cases pat with
    | nil => exact absurd rfl hp
    | cons a t => rfl
  rw [he] at hi
  simp only [Bool.false_eq_true, if_false] at hi
  have := occsAux_bound pat s.length s 0 i hi
  omega

theorem res2atom_single (m : PDBModel) (idx : Nat) (hidx : idx < m.lenResidues)
    (hw : m.WF) : m.res2atomIndices [idx] ≠ [] := by
  have hlen : m.resLenAt idx ≠ 0 := by
    unfold PDBModel.resLenAt
    cases hg : m.resList.get? idx with
    | none =>
        have := List.get?_eq_none.mp hg
        have h2 : idx < m.resList.length := hidx
        omega
    | some r =>
        have hr : r ∈ m.resList := List.get?_mem hg
        have := PDBModel.WF_resList m hw r hr
        simp only []
        intro hc
        exact this (List.length_eq_zero.mp hc)
  simp only [PDBModel.res2atomIndices, List.flatMap_cons, List.flatMap_nil,
    List.append_nil]
  intro hc
  exact hlen (List.range'_eq_nil.mp hc)

theorem matchLoop_none (m full : PDBModel) (lowm highm : Nat) (hwf : full.WF) :
    ∀ (idxs : List Nat),
      (∀ idx ∈ idxs, idx < full.lenResidues) →
      (∀ idx ∈ idxs, ∀ lowfull highfull,
        (full.res2atomIndices [idx]).head? = some lowfull →
        (full.res2atomIndices [idx]).getLast? = some highfull →
        sliceL m.xyz lowm (highm + 1) ≠ sliceL full.xyz lowfull (highfull + 1)) →
      Ranch.matchLoop m full lowm highm idxs = .ok none := by
  intro idxs
  induction idxs with
  | nil => intro _ _; rfl
  | cons idx rest ih =>
      intro hidx hne
      have h1 : idx < full.lenResidues := hidx idx (by simp)
      have hfr : full.res2atomIndices [idx] ≠ [] := res2atom_single full idx h1 hwf
      cases hfrl : full.res2atomIndices [idx] with
      | nil => exact absurd hfrl hfr
      | cons a t =>
          cases hgl : (a :: t).getLast? with
          | none =>
              rw [List.getLast?_eq_none] at hgl
              cases hgl
          | some b =>
              simp only [Ranch.matchLoop, hfrl, List.head?, hgl]
              rw [if_neg (hne idx (by simp) a b (by rw [hfrl]; rfl)
                (by rw [hfrl]; exact hgl))]
              exact ih (fun j hj => hidx j (by simp [hj]))
                (fun j hj => hne j (by simp [hj]))

theorem fixedLoop_id (dom full : PDBModel) (hwd : dom.WF) (hwf : full.WF)
    (hno : ∀ ci, ci < dom.lenChains →
      ∀ idx ∈ occs (((dom.takeChains [ci]).sequence).take 10) full.sequence,
      ∀ lowm highm lowfull highfull,
        ((dom.takeChains [ci]).res2atomIndices [0]).head? = some lowm →
        ((dom.takeChains [ci]).res2atomIndices [0]).getLast? = some highm →
        (full.res2atomIndices [idx]).head? = some lowfull →
        (full.res2atomIndices [idx]).getLast? = some highfull →
        sliceL (dom.takeChains [ci]).xyz lowm (highm + 1)
          ≠ sliceL full.xyz lowfull (highfull + 1)) :
    ∀ (cis : List Nat), (∀ ci ∈ cis, ci < dom.lenChains) →
      ∀ ctt, Ranch.fixedLoop full (cis.map (fun i => dom.takeChains [i])) ctt
        = .ok ctt := by
  intro cis
  induction cis with
  | nil => intro _ ctt; rfl
  | cons ci rest ih =>
      intro hcis ctt
      have hci : ci < dom.lenChains := hcis ci (by simp)
      cases hg : dom.chains.get? ci with
      | none =>
          have := List.get?_eq_none.mp hg
          have h2 : ci < dom.chains.length := hci
          omega
      | some c =>
          have hg2 : dom.chains[ci]? = some c := by
            rw [← List.get?_eq_getElem?]
            exact hg
          have hmch : (dom.takeChains [ci]).chains = [c] := by
            simp [PDBModel.takeChains, hg, hg2]
          have hcmem : c ∈ dom.chains := List.get?_mem hg
          have hcw := hwd c hcmem
          have hmwf : (dom.takeChains [ci]).WF := by
            intro c' hc'
            rw [hmch] at hc'
            rcases List.mem_singleton.mp hc' with rfl
            exact hcw
          have hres : (dom.takeChains [ci]).resList = c.residues := by
            simp [PDBModel.resList, hmch]
          have hml : 1 ≤ (dom.takeChains [ci]).lenResidues := by
            have h0 : (dom.takeChains [ci]).lenResidues = c.residues.length := by
              simp [PDBModel.lenResidues, hres]
            rw [h0]
            cases hcr : c.residues with
            | nil => exact absurd hcr hcw.1
            | cons r rr => simp
          have hseqne : (dom.takeChains [ci]).sequence ≠ [] := by
            unfold PDBModel.sequence
            rw [hres]
            cases hcr : c.residues with
            | nil => exact absurd hcr hcw.1
            | cons r rr => simp
          have hpatne : ((dom.takeChains [ci]).sequence).take 10 ≠ [] := by
            cases hs : (dom.takeChains [ci]).sequence with
            | nil => exact absurd hs hseqne
            | cons x xs => simp
          simp only [List.map_cons, Ranch.fixedLoop]
          by_cases hocc : occs (((dom.takeChains [ci]).sequence).take 10)
              full.sequence ≠ []
          · rw [if_pos hocc]
            have hfrm : (dom.takeChains [ci]).res2atomIndices [0] ≠ [] :=
              res2atom_single _ 0 (by omega) hmwf
            cases hfrml : (dom.takeChains [ci]).res2atomIndices [0] with
            | nil => exact absurd hfrml hfrm
            | cons a t =>
                cases hgl : (a :: t).getLast? with
                | none =>
                    rw [List.getLast?_eq_none] at hgl
                    cases hgl
                | some b =>
                    simp only [hfrml, List.head?, hgl]
                    have hmn := matchLoop_none (dom.takeChains [ci]) full a b hwf
                      (occs (((dom.takeChains [ci]).sequence).take 10) full.sequence)
                      (fun idx hidxm => by
                        have hb := occs_bound _ full.sequence hpatne idx hidxm
                        have hp1 : 1 ≤ (((dom.takeChains [ci]).sequence).take 10).length := by
                          cases hpp : ((dom.takeChains [ci]).sequence).take 10 with
                          | nil => exact absurd hpp hpatne
                          | cons x xs => simp
                        have hsl : full.sequence.length = full.lenResidues :=
                          PDBModel.sequence_length full
                        omega)
                      (fun idx hidxm lowfull highfull hh1 hh2 =>
                        hno ci hci idx hidxm a b lowfull highfull
                          (by rw [hfrml]; rfl) (by rw [hfrml]; exact hgl) hh1 hh2)
                    rw [hmn]
                    exact ih (fun j hj => hcis j (by simp [hj])) ctt
          · rw [if_neg hocc]
            exact ih (fun j hj => hcis j (by simp [hj])) ctt

theorem filterMap_get?_range {α : Type} (l : List α) :
    (List.range l.length).filterMap (fun i => l.get? i) = l := by
  induction l with
  | nil => rfl
  | cons a t ih =>
      simp only [List.length_cons, List.range_succ_eq_map, List.filterMap_cons]
      rw [List.filterMap_map]
      exact congrArg (a :: ·) ih

theorem takeChains_range (m : PDBModel) :
    (m.takeChains (List.range m.lenChains)).chains = m.chains := by
  simp only [PDBModel.takeChains]
  exact filterMap_get?_range m.chains

/-- Claim C5: `extract_fixed` locates each chain of `dom` inside `full` by
substring search of the chain's first 10 sequence characters and accepts a
match only when the first residue's atom coordinates agree; when no chain of
`dom` matches both sequence prefix and coordinates, the returned model keeps
all chains of `full`. -/
theorem claim_C5_no_match_keeps_chains (dom full : PDBModel)
    (hwd : dom.WF) (hwf : full.WF)
    (hno : ∀ ci, ci < dom.lenChains →
      ∀ idx ∈ occs (((dom.takeChains [ci]).sequence).take 10) full.sequence,
      ∀ lowm highm lowfull highfull,
        ((dom.takeChains [ci]).res2atomIndices [0]).head? = some lowm →
        ((dom.takeChains [ci]).res2atomIndices [0]).getLast? = some highm →
        (full.res2atomIndices [idx]).head? = some lowfull →
        (full.res2atomIndices [idx]).getLast? = some highfull →
        sliceL (dom.takeChains [ci]).xyz lowm (highm + 1)
          ≠ sliceL full.xyz lowfull (highfull + 1)) :
    ∃ res, Ranch.extract_fixed dom full = .ok res ∧ res.chains = full.chains := by
  have hfl := fixedLoop_id dom full hwd hwf hno (List.range dom.lenChains)
    (fun ci hci => List.mem_range.mp hci) (List.range full.lenChains)
  refine ⟨full.takeChains (List.range full.lenChains), ?_, takeChains_range full⟩
  simp only [Ranch.extract_fixed, hfl]

/-- Witness for C5: a domain chain whose sequence prefix does not occur in
the searched model, so every chain of the latter is kept. -/
theorem claim_C5_witness :
    ∃ res, Ranch.extract_fixed wTe wDom = .ok res ∧ res.chains = wDom.chains :=
  claim_C5_no_match_keeps_chains wTe wDom (by decide) (by decide)
    (fun ci hci idx hidx lowm highm lowfull highfull _ _ _ _ => by
      have he : wTe.lenChains = 1 := rfl
      rw [he] at hci
      have hci0 : ci = 0 := by omega
      subst hci0
      have hocc : occs (((wTe.takeChains [0]).sequence).take 10) wDom.sequence
          = [] := rfl
      rw [hocc] at hidx
      exact absurd hidx (List.not_mem_nil idx))
